import Mathlib

/-!
The token holder of simplewebtools.

A shallow embedding of `tokenHolder.go` (package `simplewebtools`) and the
properties of its token registry.

Conventions of the embedding

* A Go `string` / `[]byte` is the list of its byte values (`GoString`).
* A `time.Time` is a point on one integer time line (nanoseconds); `Before` is
  `<` and `Add` is `+`.  Every `time.Now()` of the source is an explicit
  argument of the embedded function, one argument per call site.
* The map `tokens` is a key-unique association list (`Registry`); a `nil` map is
  `none`.
* Run-time panics of Go are the `Fault` results of `Except`.
* The largest length that `make([]byte, n)` allocates in a run is an explicit
  argument (`maxLen`) of `New`.
* The mutex is not modelled: every embedded operation is one sequential run of
  the Go function.
-/

namespace SimpleWebTools

/-- A Go string or byte slice, as the list of its byte values. -/
abbrev GoString := List Nat

/-- A reading of the clock (`time.Time`), in nanoseconds. -/
abbrev Time := Int

/-! ## The registry `map[string]time.Time` -/

/-- The Go map `tokens`: a list of `(key, expiresAt)` records with pairwise
different keys. -/
structure Registry where
  entries : List (GoString × Time)
  nodupKeys : (entries.map Prod.fst).Nodup

namespace Registry

/-- The map built by `make(map[string]time.Time)`. -/
def empty : Registry := ⟨[], List.nodup_nil⟩

/-- The read `v, ok := m[k]`: `none` stands for `ok = false`. -/
def get (m : Registry) (k : GoString) : Option Time :=
  (m.entries.find? (fun e => decide (e.1 = k))).map Prod.snd

/-- The statement `delete(m, k)`. -/
def delete (m : Registry) (k : GoString) : Registry :=
  ⟨m.entries.filter (fun e => !decide (e.1 = k)),
   List.Nodup.sublist (List.Sublist.map Prod.fst (List.filter_sublist _)) m.nodupKeys⟩

/-- The assignment `m[k] = v`. -/
def set (m : Registry) (k : GoString) (v : Time) : Registry :=
  ⟨(k, v) :: (m.delete k).entries, by
    have hk : k ∉ (m.delete k).entries.map Prod.fst := by
      intro h
      obtain ⟨e, he, hek⟩ := List.mem_map.mp h
      have hf := (List.mem_filter.mp he).2
      simp [hek] at hf
    exact List.nodup_cons.mpr ⟨hk, (m.delete k).nodupKeys⟩⟩

/-- The loop `for ct, ctv := range m { if ctv.Before(c) { delete(m, ct) } }`. -/
def sweep (m : Registry) (c : Time) : Registry :=
  ⟨m.entries.filter (fun e => !decide (e.2 < c)),
   List.Nodup.sublist (List.Sublist.map Prod.fst (List.filter_sublist _)) m.nodupKeys⟩

/-- The loop `for ct := range m { delete(m, ct) }`. -/
def clear (_m : Registry) : Registry := empty

end Registry

/-! ## The token holder -/

/-- The run-time panics of the Go code, and the end of the supply of
candidates in a run of the loop of `New`. -/
inductive Fault where
  /-- call of the nil function value `hashFunc` -/
  | nilFuncCall
  /-- method call on the nil interface `hashImpl` -/
  | nilHashImpl
  /-- assignment to an entry of the nil map `tokens` -/
  | nilMapWrite
  /-- the call `cleanupTicker.Stop()` on the nil pointer -/
  | nilTicker
  /-- the call `make([]byte, n)` with `n < 0` or `n` above what the runtime allocates -/
  | makeSliceLen
  /-- a call of `time.NewTicker` or `Ticker.Reset` with a non-positive duration -/
  | tickerInterval
  /-- the loop of `New` is still running when the listed candidates end -/
  | noCandidate
  deriving DecidableEq, Repr

/-- The state of a `*time.Ticker`. -/
structure Ticker where
  period : Int
  running : Bool
  deriving DecidableEq, Repr

/-- The struct `TokenHolder`.  `hashImpl` is the digest computed by the
`hash.Hash` value after `Reset` and `Write`; `hashFuncSet` tells whether the
closure `hashFunc` is non-nil.  The contexts made by `Start` are numbered in
the order of their creation: `ctxDone` lists whether each one is cancelled, and
`cancel` is the number of the context that the stored `CancelFunc` cancels. -/
structure TokenHolder where
  tokens : Option Registry
  ctxDone : List Bool
  cancel : Option Nat
  validExpiredDuration : Int
  tokenLength : Int
  cleanupTicker : Option Ticker
  tokenHolderCryptoReaderError : Bool
  hashImpl : Option (GoString → GoString)
  hashFuncSet : Bool

/-- One digit of `hex.EncodeToString` (the table `0123456789abcdef`). -/
def hexDigit (n : Nat) : Nat := if n < 10 then 48 + n else 87 + n

/-- The function `hex.EncodeToString`. -/
def hexEncodeToString (bs : GoString) : GoString :=
  bs.flatMap (fun b => [hexDigit (b / 16 % 16), hexDigit (b % 16)])

/-- The randomness one pass of the loop of `New` consumes: the outcome of the
`i`-th call `crand.Int(crand.Reader, big.NewInt(75))` of the pass (`none` is an
error) and of the `i`-th call `rand.Int31n(75)`. -/
structure Attempt where
  crypto : Nat → Option (Fin 75)
  fallback : Nat → Fin 75

namespace TokenHolder

/-- The closure `t.hashFunc` installed by `Start`. -/
def hashFunc (t : TokenHolder) (token : GoString) : Except Fault GoString :=
  if t.hashFuncSet then
    match t.hashImpl with
    | none => .error .nilHashImpl
    | some h => .ok (hexEncodeToString (h token))
  else .error .nilFuncCall

/-- The loop of `makeTokenCryptoRand` from index `i` with `k` bytes left; the
flag is `err == nil`. -/
def cryptoRandLoop (draw : Nat → Option (Fin 75)) : Nat → Nat → GoString → GoString × Bool
  | 0, _, buf => (buf, true)
  | k + 1, i, buf =>
    match draw i with
    | none => (buf, false)
    | some n => cryptoRandLoop draw k (i + 1) (buf.set i ((n.val + 48) % 256))

/-- The method `makeTokenCryptoRand`: the buffer it leaves and whether it
returned a nil error. -/
def makeTokenCryptoRand (draw : Nat → Option (Fin 75)) (buf : GoString) : GoString × Bool :=
  cryptoRandLoop draw buf.length 0 buf

/-- The loop of `makeTokenRand` from index `i` with `k` bytes left. -/
def randLoop (draw : Nat → Fin 75) : Nat → Nat → GoString → GoString
  | 0, _, buf => buf
  | k + 1, i, buf => randLoop draw k (i + 1) (buf.set i (((draw i).val + 48) % 256))

/-- The method `makeTokenRand`. -/
def makeTokenRand (draw : Nat → Fin 75) (buf : GoString) : GoString :=
  randLoop draw buf.length 0 buf

/-- One pass of generation in `New` (lines 34-41): the candidate `nt` and the
holder with the error flag updated. -/
def candidate (t : TokenHolder) (a : Attempt) (buf : GoString) : GoString × TokenHolder :=
  match makeTokenCryptoRand a.crypto buf with
  | (buf1, true) => (buf1, t)
  | (buf1, false) =>
    (makeTokenRand a.fallback buf1, { t with tokenHolderCryptoReaderError := true })

/-- The `for` loop of `New`, one list element per pass.  `now` is the
`time.Now()` of the pass that returns. -/
def newLoop (now : Time) : List Attempt → GoString → TokenHolder →
    Except Fault (GoString × TokenHolder)
  | [], _, _ => .error .noCandidate
  | a :: rest, buf, t =>
    match candidate t a buf with
    | (nt, t1) =>
      match t1.tokens.bind (fun m => m.get nt) with
      | none =>
        match t1.hashFunc nt with
        | .error e => .error e
        | .ok h =>
          match t1.tokens with
          | none => .error .nilMapWrite
          | some m =>
            .ok (nt, { t1 with tokens := some (m.set h (now + t1.validExpiredDuration)) })
      | some _ => newLoop now rest nt t1

/-- The method `New`.  `maxLen` is the largest length for which
`make([]byte, n)` returns in this run: the call panics for a negative length
and for a length above the allocation limit of the runtime, and the process
ends when the memory for it is not there. -/
def New (t : TokenHolder) (maxLen : Nat) (src : List Attempt) (now : Time) :
    Except Fault (GoString × TokenHolder) :=
  if t.tokenLength < 0 ∨ (maxLen : Int) < t.tokenLength then .error .makeSliceLen
  else newLoop now src (List.replicate t.tokenLength.toNat 0) t

/-- The method `Drop`. -/
def Drop (t : TokenHolder) (token : GoString) : Except Fault TokenHolder :=
  match t.hashFunc token with
  | .error e => .error e
  | .ok h => .ok { t with tokens := t.tokens.map (fun m => m.delete h) }

/-- The method `Checkout`.  `now₁` is the `time.Now()` of line 83 and `now₂` the
one of line 87. -/
def Checkout (t : TokenHolder) (token : GoString) (now₁ now₂ : Time) :
    Except Fault (Bool × TokenHolder) :=
  match t.hashFunc token with
  | .error e => .error e
  | .ok h =>
    match t.tokens with
    | none => .ok (false, t)
    | some m =>
      match m.get h with
      | none => .ok (false, t)
      | some v =>
        if v < now₁ then .ok (false, { t with tokens := some (m.delete h) })
        else .ok (true, { t with tokens := some (m.set h (now₂ + t.validExpiredDuration)) })

/-- The method `CheckoutAndDrop`. -/
def CheckoutAndDrop (t : TokenHolder) (token : GoString) (now₁ now₂ : Time) :
    Except Fault (Bool × TokenHolder) :=
  match t.Checkout token now₁ now₂ with
  | .error e => .error e
  | .ok (true, t1) =>
    match t1.Drop token with
    | .error e => .error e
    | .ok t2 => .ok (true, t2)
  | .ok (false, t1) => .ok (false, t1)

/-- The `case <-ticker.C` branch of the goroutine started by `Start`, with
`curr_time` the clock reading it takes. -/
def reaperTick (t : TokenHolder) (curr_time : Time) : TokenHolder :=
  { t with tokens := t.tokens.map (fun m => m.sweep curr_time) }

/-- The `case <-ctx.Done()` branch of the goroutine started by `Start`. -/
def reaperDone (t : TokenHolder) : TokenHolder :=
  { t with tokens := t.tokens.map (fun m => m.clear) }

/-- The zero value of `TokenHolder`: the holder before any `Start`. -/
def zero : TokenHolder :=
  { tokens := none
    ctxDone := []
    cancel := none
    validExpiredDuration := 0
    tokenLength := 0
    cleanupTicker := none
    tokenHolderCryptoReaderError := false
    hashImpl := none
    hashFuncSet := false }

/-- The call `t.cancel()` guarded by `t.cancel != nil`. -/
def cancelCurrent (t : TokenHolder) : List Bool :=
  match t.cancel with
  | some i => t.ctxDone.set i true
  | none => t.ctxDone

/-- The method `SetCleanupExpiredDuration`. -/
def SetCleanupExpiredDuration (t : TokenHolder) (duration : Int) : Except Fault TokenHolder :=
  if duration ≤ 0 then .error .tickerInterval
  else .ok { t with cleanupTicker := some { period := duration, running := true } }

/-- The method `SetTokenLength`. -/
def SetTokenLength (t : TokenHolder) (l : Int) : TokenHolder :=
  { t with tokenLength := l }

/-- The method `SetValidExpiredDuration`. -/
def SetValidExpiredDuration (t : TokenHolder) (duration : Int) : TokenHolder :=
  { t with validExpiredDuration := duration }

/-- The method `Start`, up to the launch of the goroutine: the new context is
the last entry of `ctxDone`, and the goroutine bound to it acts through
`reaperTick` and `reaperDone`. -/
def Start (t : TokenHolder) (validTimeDuration checkTokenDuration : Int) (tokenLength : Int)
    (hash : Option (GoString → GoString)) : Except Fault TokenHolder :=
  if checkTokenDuration ≤ 0 then .error .tickerInterval
  else
    .ok { tokens := some Registry.empty
          ctxDone := t.cancelCurrent ++ [false]
          cancel := some t.ctxDone.length
          validExpiredDuration := validTimeDuration
          tokenLength := tokenLength
          cleanupTicker := some { period := checkTokenDuration, running := true }
          tokenHolderCryptoReaderError := t.tokenHolderCryptoReaderError
          hashImpl := hash
          hashFuncSet := true }

/-- The method `Stop`. -/
def Stop (t : TokenHolder) : Except Fault TokenHolder :=
  match t.cleanupTicker with
  | none => .error .nilTicker
  | some tk =>
    .ok { t with cleanupTicker := some { tk with running := false }
                 ctxDone := t.cancelCurrent }

end TokenHolder

/-! ## Runs of operations -/

/-- One operation on a started holder, with the clock readings and the
randomness it consumes; `sweep` is one tick of the reaper. -/
inductive Op where
  | new (maxLen : Nat) (src : List Attempt) (now : Time)
  | checkout (token : GoString) (now₁ now₂ : Time)
  | drop (token : GoString)
  | checkoutAndDrop (token : GoString) (now₁ now₂ : Time)
  | sweep (curr_time : Time)

/-- What an operation returns to its caller. -/
inductive Ret where
  | token (tok : GoString)
  | flag (b : Bool)
  | unit
  deriving DecidableEq, Repr

/-- One operation run on the holder. -/
def step (t : TokenHolder) : Op → Except Fault (Ret × TokenHolder)
  | .new maxLen src now =>
    match t.New maxLen src now with
    | .error e => .error e
    | .ok (tok, t1) => .ok (.token tok, t1)
  | .checkout token now₁ now₂ =>
    match t.Checkout token now₁ now₂ with
    | .error e => .error e
    | .ok (b, t1) => .ok (.flag b, t1)
  | .drop token =>
    match t.Drop token with
    | .error e => .error e
    | .ok t1 => .ok (.unit, t1)
  | .checkoutAndDrop token now₁ now₂ =>
    match t.CheckoutAndDrop token now₁ now₂ with
    | .error e => .error e
    | .ok (b, t1) => .ok (.flag b, t1)
  | .sweep curr_time => .ok (.unit, t.reaperTick curr_time)

/-- A sequence of operations run one after the other: the values returned, in
order, and the final holder. -/
def run (t : TokenHolder) : List Op → Except Fault (List Ret × TokenHolder)
  | [] => .ok ([], t)
  | op :: ops =>
    match step t op with
    | .error e => .error e
    | .ok (r, t1) =>
      match run t1 ops with
      | .error e => .error e
      | .ok (rs, t2) => .ok (r :: rs, t2)

/-- The digest `d` is not a key of the registry of `t`, and `t` hashes as `t0`
does. -/
def TokenHolder.Absent (t0 t : TokenHolder) (d : GoString) : Prop :=
  t.hashImpl = t0.hashImpl ∧ t.hashFuncSet = t0.hashFuncSet ∧
    ∃ m, t.tokens = some m ∧ m.get d = none

/-- A schedule of checkouts of `token` and reaper ticks: the clock readings do
not decrease from `clock` on, the two readings of a checkout are in order, and
every checkout comes at most `D` after the previous one, or after the issue,
at `last`. -/
def SlidingSchedule (token : GoString) (D : Int) : Time → Time → List Op → Prop
  | _, _, [] => True
  | last, clock, .checkout tok a b :: rest =>
    tok = token ∧ clock ≤ a ∧ a ≤ b ∧ a - last ≤ D ∧ SlidingSchedule token D a b rest
  | last, clock, .sweep c :: rest => clock ≤ c ∧ SlidingSchedule token D last c rest
  | _, _, _ :: _ => False

/-- The value every operation of a sliding schedule returns when all its
checkouts succeed. -/
def slidingRet : Op → Ret
  | .sweep _ => .unit
  | _ => .flag true

/-! ## The history of a digest in a run -/

/-- Whether the holder `t0` hashes the token to the digest `d`. -/
def hasDigest (t0 : TokenHolder) (tok d : GoString) : Bool :=
  match t0.hashFunc tok with
  | .ok d1 => decide (d1 = d)
  | .error _ => false

/-- The effect of one executed operation on the time of the last write of the
digest `d`: a `New` that returns a token with this digest writes it at its
clock reading, a `Checkout` of such a token that returns true writes it at its
second clock reading, a `Drop` or `CheckoutAndDrop` of such a token erases it,
everything else leaves it. -/
def writeStep (t0 : TokenHolder) (d : GoString) (acc : Option Time) : Op × Ret → Option Time
  | (.new _ _ now, .token tok) => if hasDigest t0 tok d then some now else acc
  | (.checkout tok _ now₂, .flag true) => if hasDigest t0 tok d then some now₂ else acc
  | (.drop tok, _) => if hasDigest t0 tok d then none else acc
  | (.checkoutAndDrop tok _ _, _) => if hasDigest t0 tok d then none else acc
  | _ => acc

/-- The time of the last write of the digest `d` that no drop has followed, in
a run given by its operations and the values they returned. -/
def lastWrite (t0 : TokenHolder) (d : GoString) (acc : Option Time)
    (evs : List (Op × Ret)) : Option Time :=
  evs.foldl (writeStep t0 d) acc

/-- The clock after one operation, when its readings do not go back from
`clock`. -/
def opClock (clock : Time) : Op → Option Time
  | .new _ _ now => if clock ≤ now then some now else none
  | .checkout _ now₁ now₂ => if clock ≤ now₁ ∧ now₁ ≤ now₂ then some now₂ else none
  | .drop _ => some clock
  | .checkoutAndDrop _ now₁ now₂ => if clock ≤ now₁ ∧ now₁ ≤ now₂ then some now₂ else none
  | .sweep curr_time => if clock ≤ curr_time then some curr_time else none

/-- The clock after a run of operations whose readings never decrease; `none`
when some reading goes back. -/
def runClock (clock : Time) : List Op → Option Time
  | [] => some clock
  | op :: ops =>
    match opClock clock op with
    | none => none
    | some clock1 => runClock clock1 ops

/-- The invariant of a run for the digest `d`: the holder hashes as `t0` and has
validity `D`; a record of `d` in the registry has the expiry `s + D` for the
time `s` of the last write of `d`; and that time is not after the clock. -/
def TokenHolder.WriteInv (t0 t : TokenHolder) (D : Int) (d : GoString) (acc : Option Time)
    (clock : Time) : Prop :=
  t.hashImpl = t0.hashImpl ∧ t.hashFuncSet = t0.hashFuncSet ∧ t.validExpiredDuration = D ∧
    (∃ m, t.tokens = some m ∧ ∀ e, m.get d = some e → ∃ s, acc = some s ∧ e = s + D) ∧
    ∀ s, acc = some s → s ≤ clock

/-- Whether an executed operation writes a record under the digest `d`: a `New`
that returns a token with this digest, or a `Checkout` of such a token that
returns true. -/
def writesDigest (t0 : TokenHolder) (d : GoString) : Op × Ret → Bool
  | (.new _ _ _, .token tok) => hasDigest t0 tok d
  | (.checkout tok _ _, .flag true) => hasDigest t0 tok d
  | _ => false

/-- The holder `t` hashes as `t0` does, and a record of the digest `d` in its
registry has the expiry `E`. -/
def TokenHolder.ExpiryInv (t0 t : TokenHolder) (d : GoString) (E : Time) : Prop :=
  t.hashImpl = t0.hashImpl ∧ t.hashFuncSet = t0.hashFuncSet ∧
    ∃ m, t.tokens = some m ∧ ∀ e, m.get d = some e → e = E

/-! ## The reaper goroutine -/

/-- What the `select` of the goroutine started by `Start` can receive: the
closed `ctx.Done()` channel, or a tick of `ticker.C` at which the goroutine
reads the clock as `curr_time`. -/
inductive ReaperEvent where
  | done
  | tick (curr_time : Time)

/-- One pass of the `for` loop of the goroutine bound to the context number `i`;
`none` when the event cannot be received (the context is not cancelled).  No
branch of the `select` leaves the loop, so after every pass the goroutine is at
the `select` again: it has no terminated state. -/
def reaperStep (i : Nat) (t : TokenHolder) : ReaperEvent → Option TokenHolder
  | .done => if t.ctxDone[i]? = some true then some t.reaperDone else none
  | .tick curr_time => some (t.reaperTick curr_time)

/-- A sequence of passes of the goroutine bound to the context number `i`. -/
def reaperRun (i : Nat) (t : TokenHolder) : List ReaperEvent → Option TokenHolder
  | [] => some t
  | ev :: evs =>
    match reaperStep i t ev with
    | none => none
    | some t1 => reaperRun i t1 evs

/-! ## The template holder (`templateHolder.go`) -/

/-- The `error` values that `Apply` and `LoadTemplates` return: the error of the
directory walk, the error of `template.ParseFiles`, the error of
`ExecuteTemplate`, and `errors.New("template holder: templates not loaded")`. -/
inductive TemplateError where
  | walk (code : Nat)
  | parse (code : Nat)
  | exec (code : Nat)
  | notLoaded
  deriving DecidableEq, Repr

/-- A parsed template set (`*template.Template` that is not nil), as the list
of the files it was parsed from. -/
structure Template where
  files : List GoString
  deriving DecidableEq, Repr

/-- The struct `TemplateHolder`; `none` is the nil pointer. -/
structure TemplateHolder where
  templates : Option Template
  deriving DecidableEq, Repr

/-- One call of the walk function by `filepath.Walk`: the path visited, whether
it is a directory, and the error `filepath.Walk` passes for it (`none` is
nil). -/
structure WalkEntry where
  path : GoString
  isDir : Bool
  err : Option TemplateError

namespace TemplateHolder

/-- The function literal passed to `filepath.Walk` in `LoadTemplates`, acting on
the slice `tmplts`. -/
def walkFn (tmplts : List GoString) (e : WalkEntry) : Except TemplateError (List GoString) :=
  match e.err with
  | some err => .error err
  | none => if !e.isDir then .ok (tmplts ++ [e.path]) else .ok tmplts

/-- The call `filepath.Walk(path, walkFn)` over the entries it visits: it stops
with the first error the walk function returns. -/
def walk : List WalkEntry → List GoString → Except TemplateError (List GoString)
  | [], tmplts => .ok tmplts
  | e :: es, tmplts =>
    match walkFn tmplts e with
    | .error err => .error err
    | .ok tmplts1 => walk es tmplts1

/-- The method `LoadTemplates`.  `parseFiles` is `template.ParseFiles`, which
returns either a template set and a nil error, or a nil set and an error. -/
def LoadTemplates (t : TemplateHolder) (entries : List WalkEntry)
    (parseFiles : List GoString → Except TemplateError Template) :
    Option TemplateError × TemplateHolder :=
  match walk entries [] with
  | .error err => (some err, t)
  | .ok tmplts =>
    match parseFiles tmplts with
    | .ok tm => (none, { templates := some tm })
    | .error err => (some err, { templates := none })

/-- The method `Apply`.  `execute` is the result of `ExecuteTemplate` on the
loaded set for the given name (writer and data are part of it). -/
def Apply (t : TemplateHolder) (execute : Template → GoString → Option TemplateError)
    (name : GoString) : Option TemplateError :=
  match t.templates with
  | some tm => execute tm name
  | none => some .notLoaded

end TemplateHolder

/-! ## Concrete data for the examples -/

/-- The allocation limit of the Go runtime on 64-bit Linux (`maxAlloc`), used
as `maxLen` in the examples. -/
def allocLimit : Nat := 2 ^ 48

/-- An 8-bit additive checksum, as a small instance of `hash.Hash`: the digest
is the one byte `sum of the input mod 256`. -/
def sum8 : GoString → GoString := fun bs => [bs.sum % 256]

/-- A pass of `New` whose secure source returns `n` for every byte. -/
def constAttempt (n : Fin 75) : Attempt :=
  { crypto := fun _ => some n, fallback := fun _ => n }

/-- A pass of `New` whose secure source returns `a` for the first byte and `b`
for the others. -/
def pairAttempt (a b : Fin 75) : Attempt :=
  { crypto := fun i => if i = 0 then some a else some b, fallback := fun _ => a }

/-- The holder after `Start(10, 5, 2, sum8)` on the zero value. -/
def started0 : TokenHolder :=
  { tokens := some Registry.empty
    ctxDone := [false]
    cancel := some 0
    validExpiredDuration := 10
    tokenLength := 2
    cleanupTicker := some { period := 5, running := true }
    tokenHolderCryptoReaderError := false
    hashImpl := some sum8
    hashFuncSet := true }

/-- The holder `started0` after `New` returned the token `AA` at time 100: the
registry maps the digest `82` of `AA` to 110. -/
def issuedAA : TokenHolder :=
  { started0 with tokens := some (Registry.empty.set [56, 50] 110) }

/-- The holder `started0` after `New` returned the token `AB` at time 100: the
registry maps the digest `83` of `AB` to 110. -/
def issuedAB : TokenHolder :=
  { started0 with tokens := some (Registry.empty.set [56, 51] 110) }

/-- The holder `issuedAB` after `Drop(AB)`. -/
def droppedAB : TokenHolder :=
  { issuedAB with tokens := some ((Registry.empty.set [56, 51] 110).delete [56, 51]) }

/-- The holder `droppedAB` after a `New` at time 120 returned the token `BA`,
whose digest is `83` as well. -/
def reissuedBA : TokenHolder :=
  { droppedAB with
    tokens := some (((Registry.empty.set [56, 51] 110).delete [56, 51]).set [56, 51] 130) }

/-- The holder `droppedAB` after a `New` at time 120 returned the token `BB`,
whose digest is `84`. -/
def reissuedBB : TokenHolder :=
  { droppedAB with
    tokens := some (((Registry.empty.set [56, 51] 110).delete [56, 51]).set [56, 52] 130) }

/-- The holder `started0` with the token length set to `2 ^ 62`. -/
def hugeLength : TokenHolder :=
  { started0 with tokenLength := 2 ^ 62 }

/-- A pass of `New` whose secure source returns 1 for the first byte and fails
on the second; the fallback source returns 3 for every byte. -/
def failingAttempt : Attempt :=
  { crypto := fun i => if i = 0 then some 1 else none, fallback := fun _ => 3 }

/-- The holder `started0` with a validity of one second (in nanoseconds). -/
def startedSec : TokenHolder :=
  { started0 with validExpiredDuration := 1000000000 }

/-- The holder `startedSec` after `New` returned the token `AA` at time 0. -/
def issuedSec : TokenHolder :=
  { startedSec with tokens := some (Registry.empty.set [56, 50] 1000000000) }

/-- The holder `started0` after `New` returned the token `9a` at time 100; the
digest of `9a` under `sum8` is `9a` again. -/
def issued9a : TokenHolder :=
  { started0 with tokens := some (Registry.empty.set [57, 97] 110) }

/-- The holder `issuedAB` after a `New` at time 105 returned the token `BA`,
whose digest is `83` as well: the record is re-dated to 115. -/
def redatedAB : TokenHolder :=
  { started0 with tokens := some ((Registry.empty.set [56, 51] 110).set [56, 51] 115) }

/-- The holder `issuedAA` after `Stop`, before the reaper has run. -/
def stoppedAA : TokenHolder :=
  { issuedAA with cleanupTicker := some { period := 5, running := false }
                  ctxDone := [true] }

/-- The holder `started0` after a second `Start(10, 5, 2, sum8)`: the first
context is cancelled, the second is live. -/
def restarted0 : TokenHolder :=
  { started0 with ctxDone := [true, false], cancel := some 1 }

/-- The holder `restarted0` after `New` returned the token `AA` at time 100. -/
def restartedAA : TokenHolder :=
  { restarted0 with tokens := some (Registry.empty.set [56, 50] 110) }

/-- A version of `template.ParseFiles` for the examples: no file named is an
error, and so is a file whose name starts with the byte `33`. -/
def parseFilesEx (files : List GoString) : Except TemplateError Template :=
  if files = [] then .error (.parse 0)
  else if files.any (fun f => f.head? == some 33) then .error (.parse 1)
  else .ok { files := files }

/-- The holder `started0` after `New` returned `AA` at time 100, `Checkout(AA)`
succeeded at time 105 and the reaper ticked at time 110. -/
def checkedAA : TokenHolder :=
  { started0 with
    tokens := some (((Registry.empty.set [56, 50] 110).set [56, 50] 115).sweep 110) }

/-- The holder `checkedAA` after `Checkout(AA)` succeeded at time 112. -/
def recheckedAA : TokenHolder :=
  { started0 with
    tokens := some
      ((((Registry.empty.set [56, 50] 110).set [56, 50] 115).sweep 110).set [56, 50] 122) }

/-! ## Lemmas on the registry -/

theorem find_filter_key (l : List (GoString × Time)) (k k' : GoString) :
    (l.filter (fun e => !decide (e.1 = k))).find? (fun e => decide (e.1 = k')) =
      if k' = k then none else l.find? (fun e => decide (e.1 = k')) := by
  induction l with
  | nil => simp
  | cons e l ih =>
    by_cases hek : e.1 = k
    · by_cases hkk : k' = k
      · simp [List.filter_cons, hek, ih, hkk]
      · have hne : ¬ k = k' := fun h => hkk h.symm
        simp [List.filter_cons, hek, ih, hkk, List.find?_cons, hne]
    · by_cases hkk : k' = k
      · subst hkk
        simp [List.filter_cons, hek, ih, List.find?_cons]
      · by_cases hek' : e.1 = k'
        · simp [List.filter_cons, hek, hkk, List.find?_cons, hek']
        · simp [List.filter_cons, hek, ih, hkk, List.find?_cons, hek']

theorem Registry.ext_entries {m m' : Registry} (h : m.entries = m'.entries) : m = m' := by
  cases m; cases m'; cases h; rfl

theorem Registry.get_empty (k : GoString) : Registry.empty.get k = none := rfl

theorem Registry.get_delete (m : Registry) (k k' : GoString) :
    (m.delete k).get k' = if k' = k then none else m.get k' := by
  unfold Registry.get Registry.delete
  simp only [find_filter_key]
  split <;> simp

theorem Registry.get_set (m : Registry) (k k' : GoString) (v : Time) :
    (m.set k v).get k' = if k' = k then some v else m.get k' := by
  by_cases hkk : k' = k
  · subst hkk
    simp [Registry.get, Registry.set]
  · have hne : ¬ k = k' := fun h => hkk h.symm
    have hd := Registry.get_delete m k k'
    simp only [hkk, if_false] at hd
    simp only [Registry.get] at hd
    simp [Registry.get, Registry.set, List.find?_cons, hne, hkk, hd]

theorem Registry.delete_eq_self (m : Registry) (k : GoString) (h : m.get k = none) :
    m.delete k = m := by
  apply Registry.ext_entries
  unfold Registry.get at h
  unfold Registry.delete
  simp only
  rw [List.filter_eq_self]
  intro e he
  have hn : m.entries.find? (fun e => decide (e.1 = k)) = none := by
    cases hf : m.entries.find? (fun e => decide (e.1 = k)) with
    | none => rfl
    | some x => rw [hf] at h; simp at h
  have := List.find?_eq_none.mp hn e he
  simpa using this

/-! ## Lemmas on the operations -/

theorem started0_eq : TokenHolder.Start TokenHolder.zero 10 5 2 (some sum8) = .ok started0 := rfl

theorem issuedAA_eq :
    started0.New allocLimit [constAttempt 17] 100 = .ok ([65, 65], issuedAA) := rfl

theorem issuedAB_eq :
    started0.New allocLimit [pairAttempt 17 18] 100 = .ok ([65, 66], issuedAB) := rfl

theorem droppedAB_eq : issuedAB.Drop [65, 66] = .ok droppedAB := rfl

theorem reissuedBA_eq :
    droppedAB.New allocLimit [pairAttempt 18 17] 120 = .ok ([66, 65], reissuedBA) := rfl

namespace TokenHolder

theorem candidate_snd (t : TokenHolder) (a : Attempt) (buf : GoString) :
    ∃ b, (candidate t a buf).2 = { t with tokenHolderCryptoReaderError := b } := by
  unfold candidate
  rcases hc : makeTokenCryptoRand a.crypto buf with ⟨buf1, ok⟩
  cases ok
  · exact ⟨true, rfl⟩
  · exact ⟨t.tokenHolderCryptoReaderError, rfl⟩

theorem hashFunc_flag (t : TokenHolder) (b : Bool) (token : GoString) :
    ({ t with tokenHolderCryptoReaderError := b } : TokenHolder).hashFunc token =
      t.hashFunc token := rfl

theorem hashFunc_tokens (t : TokenHolder) (r : Option Registry) (token : GoString) :
    ({ t with tokens := r } : TokenHolder).hashFunc token = t.hashFunc token := rfl

/-- What a returning run of the loop of `New` has done: the returned plaintext
was not a key of the registry, and its digest is now mapped to
`now + validExpiredDuration`. -/
theorem newLoop_ok (now : Time) (src : List Attempt) (buf : GoString) (t : TokenHolder)
    (tok : GoString) (t' : TokenHolder) (h : newLoop now src buf t = .ok (tok, t')) :
    ∃ b m d, t.tokens = some m ∧ t.hashFunc tok = .ok d ∧ m.get tok = none ∧
      t' = { t with tokenHolderCryptoReaderError := b
                    tokens := some (m.set d (now + t.validExpiredDuration)) } := by
  induction src generalizing buf t with
  | nil => simp [newLoop] at h
  | cons a rest ih =>
    obtain ⟨b, hb⟩ := candidate_snd t a buf
    rcases hc : candidate t a buf with ⟨nt, t1⟩
    rw [hc] at hb
    simp only at hb
    subst hb
    simp only [newLoop, hc] at h
    clear hc
    rcases t with ⟨tk, cd, cn, D, n, ct, fl, hi, hs⟩
    simp only at h ⊢
    have hfl : ∀ (r : Option Registry) (x : GoString),
        (⟨r, cd, cn, D, n, ct, b, hi, hs⟩ : TokenHolder).hashFunc x =
          (⟨r, cd, cn, D, n, ct, fl, hi, hs⟩ : TokenHolder).hashFunc x := fun _ _ => rfl
    cases tk with
    | none =>
      simp only [Option.bind, hfl] at h
      cases hh : (⟨none, cd, cn, D, n, ct, fl, hi, hs⟩ : TokenHolder).hashFunc nt with
      | error e => simp [hh] at h
      | ok d => simp [hh] at h
    | some m =>
      simp only [Option.bind, hfl] at h
      cases hg : m.get nt with
      | none =>
        simp only [hg] at h
        cases hh : (⟨some m, cd, cn, D, n, ct, fl, hi, hs⟩ : TokenHolder).hashFunc nt with
        | error e => simp [hh] at h
        | ok d =>
          simp only [hh, Except.ok.injEq, Prod.mk.injEq] at h
          obtain ⟨h1, h2⟩ := h
          subst h1
          exact ⟨b, m, d, rfl, hh, hg, h2.symm⟩
      | some v =>
        simp only [hg] at h
        obtain ⟨b', m', d, h1, h2, h3, h4⟩ := ih _ _ h
        simp only [Option.some.injEq] at h1
        subst h1
        rw [hfl] at h2
        exact ⟨b', m, d, rfl, h2, h3, h4⟩

/-- The loop of `New` returns in its first pass when the candidate is not a key
of the registry. -/
theorem newLoop_head (now : Time) (a : Attempt) (rest : List Attempt) (buf : GoString)
    (t : TokenHolder) (m : Registry) (d : GoString) (hm : t.tokens = some m)
    (hg : m.get (candidate t a buf).1 = none)
    (hd : t.hashFunc (candidate t a buf).1 = .ok d) :
    newLoop now (a :: rest) buf t =
      .ok ((candidate t a buf).1,
        { (candidate t a buf).2 with
          tokens := some (m.set d (now + t.validExpiredDuration)) }) := by
  obtain ⟨b, hb⟩ := candidate_snd t a buf
  rcases hc : candidate t a buf with ⟨nt, t1⟩
  rw [hc] at hb hg hd
  simp only at hb hg hd
  subst hb
  rcases t with ⟨tk, cd, cn, D, n, ct, fl, hi, hs⟩
  simp only at hm
  subst hm
  have hd' : (⟨some m, cd, cn, D, n, ct, b, hi, hs⟩ : TokenHolder).hashFunc nt = .ok d := hd
  simp only [newLoop, hc, Option.bind, hg, hd']

theorem New_ok (t : TokenHolder) (maxLen : Nat) (src : List Attempt) (now : Time)
    (tok : GoString) (t' : TokenHolder) (h : t.New maxLen src now = .ok (tok, t')) :
    ∃ b m d, t.tokens = some m ∧ t.hashFunc tok = .ok d ∧ m.get tok = none ∧
      t' = { t with tokenHolderCryptoReaderError := b
                    tokens := some (m.set d (now + t.validExpiredDuration)) } := by
  unfold New at h
  split at h
  · simp at h
  · exact newLoop_ok _ _ _ _ _ _ h

end TokenHolder

theorem Registry.get_sweep_none (m : Registry) (c : Time) (k : GoString)
    (h : m.get k = none) : (m.sweep c).get k = none := by
  unfold Registry.get at h ⊢
  unfold Registry.sweep
  simp only [Option.map_eq_none', List.find?_eq_none] at h ⊢
  intro e he
  exact h e (List.mem_filter.mp he).1

theorem find_filter_expiry (l : List (GoString × Time)) (hn : (l.map Prod.fst).Nodup)
    (k : GoString) (c : Time) :
    ((l.filter (fun e => !decide (e.2 < c))).find? (fun e => decide (e.1 = k))).map Prod.snd =
      ((l.find? (fun e => decide (e.1 = k))).map Prod.snd).filter (fun v => !decide (v < c)) := by
  induction l with
  | nil => simp [Option.filter]
  | cons e l ih =>
    simp only [List.map_cons, List.nodup_cons] at hn
    obtain ⟨hnot, hn'⟩ := hn
    by_cases hek : e.1 = k
    · by_cases hlt : e.2 < c
      · have hnone : (l.filter (fun e => !decide (e.2 < c))).find?
            (fun e => decide (e.1 = k)) = none := by
          rw [List.find?_eq_none]
          intro x hx hxk
          have hxl : x ∈ l := (List.mem_filter.mp hx).1
          have : x.1 = k := by simpa using hxk
          exact hnot (List.mem_map.mpr ⟨x, hxl, by rw [this, hek]⟩)
        simp [List.filter_cons, hlt, hnone, List.find?_cons, hek, Option.filter]
      · simp [List.filter_cons, hlt, List.find?_cons, hek, Option.filter]
    · have hk : decide (e.1 = k) = false := by simp [hek]
      by_cases hlt : e.2 < c
      · have hf : (!decide (e.2 < c)) = false := by simp [hlt]
        simp only [List.filter_cons, hf, List.find?_cons, hk]
        exact ih hn'
      · have hf : (!decide (e.2 < c)) = true := by simp [hlt]
        simp only [List.filter_cons, hf, if_true, List.find?_cons, hk]
        exact ih hn'

/-- The registry after a sweep at `c`, read at any key: the record is kept
exactly when its expiry is not before `c`. -/
theorem Registry.get_sweep (m : Registry) (c : Time) (k : GoString) :
    (m.sweep c).get k = (m.get k).filter (fun v => !decide (v < c)) :=
  find_filter_expiry m.entries m.nodupKeys k c

theorem Registry.mem_sweep_entries (m : Registry) (c : Time) (e : GoString × Time) :
    e ∈ (m.sweep c).entries ↔ e ∈ m.entries ∧ ¬ e.2 < c := by
  simp [Registry.sweep, List.mem_filter]

theorem Registry.get_clear (m : Registry) (k : GoString) : m.clear.get k = none := rfl

namespace TokenHolder

theorem mem_delete_entries (m : Registry) (k : GoString) (e : GoString × Time) :
    e ∈ (m.delete k).entries ↔ e ∈ m.entries ∧ e.1 ≠ k := by
  simp [Registry.delete, List.mem_filter]

/-- The method `Checkout` on a holder whose registry is the map `m` and whose
`hashFunc` returns `d` for the token. -/
theorem Checkout_eq (t : TokenHolder) (token : GoString) (now₁ now₂ : Time) (m : Registry)
    (d : GoString) (hm : t.tokens = some m) (hd : t.hashFunc token = .ok d) :
    t.Checkout token now₁ now₂ =
      match m.get d with
      | none => .ok (false, t)
      | some v =>
        if v < now₁ then .ok (false, { t with tokens := some (m.delete d) })
        else .ok (true, { t with tokens := some (m.set d (now₂ + t.validExpiredDuration)) }) := by
  simp only [Checkout, hd, hm]

/-- The method `Drop` on a holder whose registry is the map `m` and whose
`hashFunc` returns `d` for the token. -/
theorem Drop_eq (t : TokenHolder) (token : GoString) (m : Registry)
    (d : GoString) (hm : t.tokens = some m) (hd : t.hashFunc token = .ok d) :
    t.Drop token = .ok { t with tokens := some (m.delete d) } := by
  simp only [Drop, hd, hm, Option.map]

/-- The method `CheckoutAndDrop` on a holder whose registry is the map `m` and
whose `hashFunc` returns `d` for the token. -/
theorem CheckoutAndDrop_eq (t : TokenHolder) (token : GoString) (now₁ now₂ : Time)
    (m : Registry) (d : GoString) (hm : t.tokens = some m) (hd : t.hashFunc token = .ok d) :
    t.CheckoutAndDrop token now₁ now₂ =
      match m.get d with
      | none => .ok (false, t)
      | some v =>
        if v < now₁ then .ok (false, { t with tokens := some (m.delete d) })
        else
          .ok (true,
            { t with tokens := some ((m.set d (now₂ + t.validExpiredDuration)).delete d) }) := by
  rcases t with ⟨tk, cd, cn, D, n, ct, fl, hi, hs⟩
  simp only at hm
  subst hm
  have hall : ∀ r : Option Registry,
      (⟨r, cd, cn, D, n, ct, fl, hi, hs⟩ : TokenHolder).hashFunc token = .ok d := fun _ => hd
  unfold CheckoutAndDrop
  rw [Checkout_eq _ token now₁ now₂ m d rfl hd]
  cases hv : m.get d with
  | none => rfl
  | some v =>
    by_cases hlt : v < now₁
    · simp only [hlt, if_true]
    · simp only [hlt, if_false]
      rw [Drop_eq _ token _ d rfl (hall _)]

theorem hashFunc_congr (t t' : TokenHolder) (h1 : t'.hashImpl = t.hashImpl)
    (h2 : t'.hashFuncSet = t.hashFuncSet) (token : GoString) :
    t'.hashFunc token = t.hashFunc token := by
  unfold hashFunc
  rw [h1, h2]

theorem Absent.hashFunc {t0 t : TokenHolder} {d : GoString} (h : Absent t0 t d)
    (token : GoString) : t.hashFunc token = t0.hashFunc token :=
  hashFunc_congr t0 t h.1 h.2.1 token

/-- One operation keeps an absent digest absent, unless it is a `New` that
returns a token with this digest. -/
theorem step_absent (t0 t t' : TokenHolder) (d : GoString) (op : Op) (r : Ret)
    (habs : Absent t0 t d) (hstep : step t op = .ok (r, t'))
    (hnew : ∀ tok, r = .token tok → t0.hashFunc tok ≠ .ok d) : Absent t0 t' d := by
  obtain ⟨hi, hs, m, hm, hg⟩ := habs
  have hcong : ∀ token, t.hashFunc token = t0.hashFunc token :=
    fun token => hashFunc_congr t0 t hi hs token
  cases op with
  | new maxLen src now =>
    simp only [step] at hstep
    cases hN : t.New maxLen src now with
    | error e => simp [hN] at hstep
    | ok p =>
      obtain ⟨tok, t1⟩ := p
      simp only [hN, Except.ok.injEq, Prod.mk.injEq] at hstep
      obtain ⟨hr, ht1⟩ := hstep
      subst ht1
      obtain ⟨b, m0, d0, hm0, hd0, _, ht1⟩ := New_ok t maxLen src now tok t1 hN
      subst ht1
      rw [hm] at hm0
      simp only [Option.some.injEq] at hm0
      subst hm0
      have hne : d ≠ d0 := by
        intro hdd
        subst hdd
        exact hnew tok hr.symm (by rw [← hcong tok]; exact hd0)
      exact ⟨hi, hs, _, rfl, by simp [Registry.get_set, hne, hg]⟩
  | checkout token now₁ now₂ =>
    simp only [step] at hstep
    cases hh : t.hashFunc token with
    | error e => simp [Checkout, hh] at hstep
    | ok d0 =>
      rw [Checkout_eq t token now₁ now₂ m d0 hm hh] at hstep
      cases hv : m.get d0 with
      | none =>
        simp only [hv, Except.ok.injEq, Prod.mk.injEq] at hstep
        obtain ⟨_, ht1⟩ := hstep
        subst ht1
        exact ⟨hi, hs, m, hm, hg⟩
      | some v =>
        by_cases hlt : v < now₁
        · simp only [hv, hlt, if_true, Except.ok.injEq, Prod.mk.injEq] at hstep
          obtain ⟨_, ht1⟩ := hstep
          subst ht1
          refine ⟨hi, hs, _, rfl, ?_⟩
          simp only [Registry.get_delete]
          split
          · rfl
          · exact hg
        · simp only [hv, hlt, if_false, Except.ok.injEq, Prod.mk.injEq] at hstep
          obtain ⟨_, ht1⟩ := hstep
          subst ht1
          have hne : d ≠ d0 := by
            intro hdd
            subst hdd
            rw [hg] at hv
            simp at hv
          exact ⟨hi, hs, _, rfl, by simp [Registry.get_set, hne, hg]⟩
  | drop token =>
    simp only [step] at hstep
    cases hh : t.hashFunc token with
    | error e => simp [Drop, hh] at hstep
    | ok d0 =>
      rw [Drop_eq t token m d0 hm hh] at hstep
      simp only [Except.ok.injEq, Prod.mk.injEq] at hstep
      obtain ⟨_, ht1⟩ := hstep
      subst ht1
      refine ⟨hi, hs, _, rfl, ?_⟩
      simp only [Registry.get_delete]
      split
      · rfl
      · exact hg
  | checkoutAndDrop token now₁ now₂ =>
    simp only [step] at hstep
    cases hh : t.hashFunc token with
    | error e => simp [CheckoutAndDrop, Checkout, hh] at hstep
    | ok d0 =>
      rw [CheckoutAndDrop_eq t token now₁ now₂ m d0 hm hh] at hstep
      cases hv : m.get d0 with
      | none =>
        simp only [hv, Except.ok.injEq, Prod.mk.injEq] at hstep
        obtain ⟨_, ht1⟩ := hstep
        subst ht1
        exact ⟨hi, hs, m, hm, hg⟩
      | some v =>
        by_cases hlt : v < now₁
        · simp only [hv, hlt, if_true, Except.ok.injEq, Prod.mk.injEq] at hstep
          obtain ⟨_, ht1⟩ := hstep
          subst ht1
          refine ⟨hi, hs, _, rfl, ?_⟩
          simp only [Registry.get_delete]
          split
          · rfl
          · exact hg
        · simp only [hv, hlt, if_false, Except.ok.injEq, Prod.mk.injEq] at hstep
          obtain ⟨_, ht1⟩ := hstep
          subst ht1
          refine ⟨hi, hs, _, rfl, ?_⟩
          simp only [Registry.get_delete]
          split
          · rfl
          · rename_i hne
            simp [Registry.get_set, hne, hg]
  | sweep c =>
    simp only [step, Except.ok.injEq, Prod.mk.injEq] at hstep
    obtain ⟨_, ht1⟩ := hstep
    subst ht1
    exact ⟨hi, hs, m.sweep c, by simp [reaperTick, hm], Registry.get_sweep_none m c d hg⟩

/-- A run of operations keeps an absent digest absent, unless one of its `New`
calls returns a token with this digest. -/
theorem run_absent (t0 : TokenHolder) (d : GoString) (ops : List Op) :
    ∀ (t t' : TokenHolder) (rets : List Ret), Absent t0 t d →
      run t ops = .ok (rets, t') →
      (∀ tok, Ret.token tok ∈ rets → t0.hashFunc tok ≠ .ok d) → Absent t0 t' d := by
  induction ops with
  | nil =>
    intro t t' rets habs hrun _
    simp only [run, Except.ok.injEq, Prod.mk.injEq] at hrun
    obtain ⟨_, ht⟩ := hrun
    subst ht
    exact habs
  | cons op ops ih =>
    intro t t' rets habs hrun hnew
    simp only [run] at hrun
    cases hs : step t op with
    | error e => simp [hs] at hrun
    | ok p =>
      obtain ⟨r, t1⟩ := p
      simp only [hs] at hrun
      cases hr : run t1 ops with
      | error e => simp [hr] at hrun
      | ok q =>
        obtain ⟨rs, t2⟩ := q
        simp only [hr, Except.ok.injEq, Prod.mk.injEq] at hrun
        obtain ⟨hrets, ht2⟩ := hrun
        subst hrets
        subst ht2
        have h1 : Absent t0 t1 d :=
          step_absent t0 t t1 d op r habs hs
            (fun tok htok => hnew tok (by simp [htok]))
        exact ih t1 t2 rs h1 hr (fun tok htok => hnew tok (by simp [htok]))

end TokenHolder

/-! ## The claims -/

/-- C1: when `New`, called at time `t0` on a holder with validity `D`, returns
the token `tok`, a `Checkout(tok)` that is the next operation and reads the
clock at `t1` with `t1 ≤ t0 + D` returns true.  (The bounds `0 ≤ D` and
`t0 ≤ t1` of the claim are not needed; `t1r` is the second clock reading of
`Checkout`, used for the refresh.) -/
theorem checkout_after_new_true (t : TokenHolder) (maxLen : Nat) (src : List Attempt)
    (t0 t1 t1r : Time) (tok : GoString) (t' : TokenHolder)
    (hnew : t.New maxLen src t0 = .ok (tok, t'))
    (h1 : t1 ≤ t0 + t.validExpiredDuration) :
    ∃ t2, t'.Checkout tok t1 t1r = .ok (true, t2) := by
  obtain ⟨b, m, d, hm, hd, _, ht'⟩ := TokenHolder.New_ok t maxLen src t0 tok t' hnew
  subst ht'
  have hd' : ({ t with tokenHolderCryptoReaderError := b
                       tokens := some (m.set d (t0 + t.validExpiredDuration)) } :
      TokenHolder).hashFunc tok = .ok d := hd
  rw [TokenHolder.Checkout_eq _ tok t1 t1r _ d rfl hd']
  have hlt : ¬ (t0 + t.validExpiredDuration < t1) := not_lt.mpr h1
  simp [Registry.get_set, hlt]

theorem checkout_after_new_true_witness :
    (105 : Int) ≤ 100 + started0.validExpiredDuration ∧
      ∃ t2, issuedAA.Checkout [65, 65] 105 106 = .ok (true, t2) :=
  ⟨by decide,
   checkout_after_new_true started0 allocLimit [constAttempt 17] 100 105 106 [65, 65] issuedAA
     issuedAA_eq (by decide)⟩

/-- C2, the code at a failing input: the registry holds the digest `82` of the
token `AA` issued at time 100 (expiry 110).  A `New` at time 200 whose first
candidate is `AA` again does not retry with the second candidate: it looks up
the plaintext `AA` (which is not a key), returns `AA` and re-dates the record
of the digest, which was a key before the insertion, to 210. -/
theorem new_redates_existing_digest :
    issuedAA.hashFunc [65, 65] = .ok [56, 50] ∧
      issuedAA.tokens.map Registry.entries = some [([56, 50], 110)] ∧
      (issuedAA.New allocLimit [constAttempt 17, constAttempt 18] 200).map
          (fun r => (r.1, r.2.tokens.map Registry.entries)) =
        .ok ([65, 65], some [([56, 50], 210)]) := by
  refine ⟨rfl, rfl, rfl⟩

/-- C3: on a holder whose registry `m` holds the digest `d` of the token with an
expiry `v` that is not before the clock reading `now₁`, `Checkout` returns
true, and the registry it leaves maps `d` to `now₂ + validExpiredDuration`
(`now₂` being the clock reading taken for the refresh, `now₁ = now₂ = now` in
the claim) and agrees with `m` on every other key; nothing else in the holder
changes. -/
theorem checkout_valid_refreshes (t : TokenHolder) (token : GoString) (now₁ now₂ : Time)
    (m : Registry) (d : GoString) (v : Time) (hm : t.tokens = some m)
    (hd : t.hashFunc token = .ok d) (hv : m.get d = some v) (hnb : ¬ v < now₁) :
    ∃ m', t.Checkout token now₁ now₂ = .ok (true, { t with tokens := some m' }) ∧
      m'.get d = some (now₂ + t.validExpiredDuration) ∧
      ∀ k, k ≠ d → m'.get k = m.get k := by
  refine ⟨m.set d (now₂ + t.validExpiredDuration), ?_, ?_, ?_⟩
  · rw [TokenHolder.Checkout_eq t token now₁ now₂ m d hm hd]
    simp [hv, hnb]
  · simp [Registry.get_set]
  · intro k hk
    simp [Registry.get_set, hk]

theorem checkout_valid_refreshes_witness :
    ∃ m', issuedAA.Checkout [65, 65] 110 111 = .ok (true, { issuedAA with tokens := some m' }) ∧
      m'.get [56, 50] = some (111 + issuedAA.validExpiredDuration) ∧
      ∀ k, k ≠ [56, 50] → m'.get k = (Registry.empty.set [56, 50] 110).get k :=
  checkout_valid_refreshes issuedAA [65, 65] 110 111 (Registry.empty.set [56, 50] 110)
    [56, 50] 110 rfl rfl rfl (by decide)

/-- C4: on a holder whose registry `m` holds the digest `d` of the token with an
expiry `v` strictly before the clock reading `now₁`, `Checkout` returns false,
and the registry it leaves is `m` without the record of `d`: its records are
exactly the records of `m` under the other keys. -/
theorem checkout_expired_deletes (t : TokenHolder) (token : GoString) (now₁ now₂ : Time)
    (m : Registry) (d : GoString) (v : Time) (hm : t.tokens = some m)
    (hd : t.hashFunc token = .ok d) (hv : m.get d = some v) (hb : v < now₁) :
    ∃ m', t.Checkout token now₁ now₂ = .ok (false, { t with tokens := some m' }) ∧
      m'.get d = none ∧ (∀ k, k ≠ d → m'.get k = m.get k) ∧
      ∀ e, e ∈ m'.entries ↔ e ∈ m.entries ∧ e.1 ≠ d := by
  refine ⟨m.delete d, ?_, ?_, ?_, ?_⟩
  · rw [TokenHolder.Checkout_eq t token now₁ now₂ m d hm hd]
    simp [hv, hb]
  · simp [Registry.get_delete]
  · intro k hk
    simp [Registry.get_delete, hk]
  · exact TokenHolder.mem_delete_entries m d

theorem checkout_expired_deletes_witness :
    ∃ m', issuedAA.Checkout [65, 65] 111 111 = .ok (false, { issuedAA with tokens := some m' }) ∧
      m'.get [56, 50] = none ∧
      (∀ k, k ≠ [56, 50] → m'.get k = (Registry.empty.set [56, 50] 110).get k) ∧
      ∀ e, e ∈ m'.entries ↔ e ∈ (Registry.empty.set [56, 50] 110).entries ∧ e.1 ≠ [56, 50] :=
  checkout_expired_deletes issuedAA [65, 65] 111 111 (Registry.empty.set [56, 50] 110)
    [56, 50] 110 rfl rfl rfl (by decide)

/-- C5 as stated fails at `now = t0 + D` exactly: the holder `started0` has
`D = 10`, `New` at time 100 returns `AA`, and the claim would make the
`Checkout` at time 110 return false, while the code returns true (the expiry
110 is not before 110). -/
theorem checkout_at_expiry_instant_not_false :
    ¬ ∀ (t : TokenHolder) (maxLen : Nat) (src : List Attempt) (t0 now now₂ : Time)
        (tok : GoString)
        (t' : TokenHolder), t.New maxLen src t0 = .ok (tok, t') →
        t0 + t.validExpiredDuration ≤ now →
        ∃ t2, t'.Checkout tok now now₂ = .ok (false, t2) := by
  intro hclaim
  obtain ⟨t2, h2⟩ := hclaim started0 allocLimit [constAttempt 17] 100 110 110 [65, 65] issuedAA
    issuedAA_eq (by decide)
  have h3 : (issuedAA.Checkout [65, 65] 110 110).map Prod.fst = .ok true := rfl
  rw [h2] at h3
  simp [Except.map] at h3

/-- C5 as amended: when `New`, called at time `t0` on a holder with validity
`D`, returns the token `tok`, the `Checkout(tok)` made on the state `New` left
(no checkout, sweep or other operation in between) at clock reading `now`
returns false exactly when `now` is strictly after `t0 + D`; at
`now = t0 + D` it still returns true. -/
theorem checkout_after_new_false_iff (t : TokenHolder) (maxLen : Nat) (src : List Attempt)
    (t0 now now₂ : Time) (tok : GoString) (t' : TokenHolder)
    (hnew : t.New maxLen src t0 = .ok (tok, t')) :
    ∃ b t2, t'.Checkout tok now now₂ = .ok (b, t2) ∧
      (b = false ↔ t0 + t.validExpiredDuration < now) := by
  obtain ⟨b, m, d, hm, hd, _, ht'⟩ := TokenHolder.New_ok t maxLen src t0 tok t' hnew
  subst ht'
  have hd' : ({ t with tokenHolderCryptoReaderError := b
                       tokens := some (m.set d (t0 + t.validExpiredDuration)) } :
      TokenHolder).hashFunc tok = .ok d := hd
  rw [TokenHolder.Checkout_eq _ tok now now₂ _ d rfl hd']
  simp only [Registry.get_set, if_true]
  by_cases hlt : t0 + t.validExpiredDuration < now
  · simp only [hlt, if_true]
    exact ⟨false, _, rfl, by simp⟩
  · simp only [hlt, if_false]
    exact ⟨true, _, rfl, by simp⟩

theorem checkout_after_new_false_iff_witness :
    ∃ b t2, issuedAA.Checkout [65, 65] 111 111 = .ok (b, t2) ∧
      (b = false ↔ 100 + started0.validExpiredDuration < 111) :=
  checkout_after_new_false_iff started0 allocLimit [constAttempt 17] 100 111 111 [65, 65]
    issuedAA
    issuedAA_eq

/-- C6: on a holder whose registry `m` does not hold the digest `d` of the
token, `Checkout` returns false and leaves the holder, its registry included,
exactly as it was. -/
theorem checkout_absent_false (t : TokenHolder) (token : GoString) (now₁ now₂ : Time)
    (m : Registry) (d : GoString) (hm : t.tokens = some m)
    (hd : t.hashFunc token = .ok d) (hv : m.get d = none) :
    t.Checkout token now₁ now₂ = .ok (false, t) := by
  rw [TokenHolder.Checkout_eq t token now₁ now₂ m d hm hd]
  simp [hv]

theorem checkout_absent_false_witness :
    issuedAA.Checkout [65, 66] 105 105 = .ok (false, issuedAA) :=
  checkout_absent_false issuedAA [65, 66] 105 105 (Registry.empty.set [56, 50] 110)
    [56, 51] rfl rfl rfl

/-- C7: on a holder whose registry is `m` and whose `hashFunc` gives the digest
`d` of the token, `CheckoutAndDrop` returns, and its result is true if and only
if `m` holds `d` with an expiry that is not before the clock reading `now₁`;
`Checkout` on the same state returns the same boolean. -/
theorem checkoutAndDrop_true_iff (t : TokenHolder) (token : GoString) (now₁ now₂ : Time)
    (m : Registry) (d : GoString) (hm : t.tokens = some m)
    (hd : t.hashFunc token = .ok d) :
    ∃ b t1, t.CheckoutAndDrop token now₁ now₂ = .ok (b, t1) ∧
      (b = true ↔ ∃ v, m.get d = some v ∧ ¬ v < now₁) ∧
      ∃ t2, t.Checkout token now₁ now₂ = .ok (b, t2) := by
  rw [TokenHolder.CheckoutAndDrop_eq t token now₁ now₂ m d hm hd,
    TokenHolder.Checkout_eq t token now₁ now₂ m d hm hd]
  cases hv : m.get d with
  | none => exact ⟨false, t, rfl, by simp, t, rfl⟩
  | some v =>
    by_cases hlt : v < now₁
    · simp only [hlt, if_true]
      exact ⟨false, _, rfl, by simp [hlt], _, rfl⟩
    · simp only [hlt, if_false]
      exact ⟨true, _, rfl, by simpa using not_lt.mp hlt, _, rfl⟩

theorem checkoutAndDrop_true_iff_witness :
    ∃ b t1, issuedAA.CheckoutAndDrop [65, 65] 105 105 = .ok (b, t1) ∧
      (b = true ↔ ∃ v, (Registry.empty.set [56, 50] 110).get [56, 50] = some v ∧ ¬ v < 105) ∧
      ∃ t2, issuedAA.Checkout [65, 65] 105 105 = .ok (b, t2) :=
  checkoutAndDrop_true_iff issuedAA [65, 65] 105 105 (Registry.empty.set [56, 50] 110)
    [56, 50] rfl rfl

/-- C8: on a holder whose registry is `m` and whose `hashFunc` gives the digest
`d` of the token, one `CheckoutAndDrop` returns (with whatever boolean `b`)
and leaves a registry that does not hold `d`; a `CheckoutAndDrop` of the
same token that follows immediately returns false at every clock reading; and
when the holder is the one a `New` issuing this token at time `t0` left and
the first clock reading is at most `t0 + D`, the first call returns true. -/
theorem checkoutAndDrop_single_redemption (t : TokenHolder) (token : GoString)
    (now₁ now₂ : Time) (m : Registry) (d : GoString) (hm : t.tokens = some m)
    (hd : t.hashFunc token = .ok d) :
    ∃ b t1 m1, t.CheckoutAndDrop token now₁ now₂ = .ok (b, t1) ∧
      t1.tokens = some m1 ∧ m1.get d = none ∧
      (∀ now₃ now₄, ∃ t2, t1.CheckoutAndDrop token now₃ now₄ = .ok (false, t2)) ∧
      (∀ (s : TokenHolder) (maxLen : Nat) (src : List Attempt) (t0 : Time),
        s.New maxLen src t0 = .ok (token, t) → now₁ ≤ t0 + s.validExpiredDuration → b = true) := by
  have hsecond : ∀ (t1 : TokenHolder) (m1 : Registry), t1.tokens = some m1 →
      t1.hashFunc token = .ok d → m1.get d = none →
      ∀ now₃ now₄, ∃ t2, t1.CheckoutAndDrop token now₃ now₄ = .ok (false, t2) := by
    intro t1 m1 h1 h2 h3 now₃ now₄
    refine ⟨t1, ?_⟩
    rw [TokenHolder.CheckoutAndDrop_eq t1 token now₃ now₄ m1 d h1 h2]
    simp [h3]
  have hfresh : ∀ (s : TokenHolder) (maxLen : Nat) (src : List Attempt) (t0 : Time),
      s.New maxLen src t0 = .ok (token, t) → now₁ ≤ t0 + s.validExpiredDuration →
      ∃ v, m.get d = some v ∧ ¬ v < now₁ := by
    intro s maxLen src t0 hnew hle
    obtain ⟨b, m0, d0, _, hd0, _, ht⟩ := TokenHolder.New_ok s maxLen src t0 token t hnew
    subst ht
    simp only [Option.some.injEq] at hm
    subst hm
    have hdd : (Except.ok d0 : Except Fault GoString) = .ok d := hd0.symm.trans hd
    simp only [Except.ok.injEq] at hdd
    subst hdd
    exact ⟨_, by simp [Registry.get_set], not_lt.mpr hle⟩
  rw [TokenHolder.CheckoutAndDrop_eq t token now₁ now₂ m d hm hd]
  cases hv : m.get d with
  | none =>
    refine ⟨false, t, m, rfl, hm, hv, hsecond t m hm hd hv, ?_⟩
    intro s maxLen src t0 hnew hle
    obtain ⟨v, h1, _⟩ := hfresh s maxLen src t0 hnew hle
    rw [hv] at h1
    simp at h1
  | some v =>
    by_cases hlt : v < now₁
    · simp only [hlt, if_true]
      have hg : (m.delete d).get d = none := by simp [Registry.get_delete]
      refine ⟨false, _, m.delete d, rfl, rfl, hg, hsecond _ _ rfl hd hg, ?_⟩
      intro s maxLen src t0 hnew hle
      obtain ⟨w, h1, h2⟩ := hfresh s maxLen src t0 hnew hle
      rw [hv] at h1
      simp only [Option.some.injEq] at h1
      subst h1
      exact absurd hlt h2
    · simp only [hlt, if_false]
      have hg : ((m.set d (now₂ + t.validExpiredDuration)).delete d).get d = none := by
        simp [Registry.get_delete]
      exact ⟨true, _, _, rfl, rfl, hg, hsecond _ _ rfl hd hg, fun _ _ _ _ _ _ => rfl⟩

theorem checkoutAndDrop_single_redemption_witness :
    ∃ b t1 m1, issuedAA.CheckoutAndDrop [65, 65] 105 106 = .ok (b, t1) ∧
      t1.tokens = some m1 ∧ m1.get [56, 50] = none ∧
      (∀ now₃ now₄, ∃ t2, t1.CheckoutAndDrop [65, 65] now₃ now₄ = .ok (false, t2)) ∧
      (∀ (s : TokenHolder) (maxLen : Nat) (src : List Attempt) (t0 : Time),
        s.New maxLen src t0 = .ok ([65, 65], issuedAA) → 105 ≤ t0 + s.validExpiredDuration →
        b = true) :=
  checkoutAndDrop_single_redemption issuedAA [65, 65] 105 106
    (Registry.empty.set [56, 50] 110) [56, 50] rfl rfl

/-- C9 as stated fails when two tokens share a digest: on `issuedAB` (hash
`sum8`, token `AB` issued) the token `AB` is dropped, a later `New` returns the
token `BA`, which is not `AB` but has the same digest `83`, and `Checkout(AB)`
then returns true. -/
theorem dropped_token_revived_by_colliding_new :
    ¬ ∀ (t : TokenHolder) (token : GoString) (m : Registry) (d : GoString)
        (t1 t2 : TokenHolder) (ops : List Op) (rets : List Ret) (now₁ now₂ : Time),
        t.tokens = some m → t.hashFunc token = .ok d → t.Drop token = .ok t1 →
        run t1 ops = .ok (rets, t2) → (∀ tok, Ret.token tok ∈ rets → tok ≠ token) →
        ∃ t3, t2.Checkout token now₁ now₂ = .ok (false, t3) := by
  intro hclaim
  obtain ⟨t3, h3⟩ := hclaim issuedAB [65, 66] (Registry.empty.set [56, 51] 110) [56, 51]
    droppedAB reissuedBA
    [Op.new allocLimit [pairAttempt 18 17] 120] [Ret.token [66, 65]] 125 125 rfl rfl rfl rfl
    (by
      intro tok htok
      simp only [List.mem_singleton, Ret.token.injEq] at htok
      subst htok
      decide)
  have h4 : (reissuedBA.Checkout [65, 66] 125 125).map Prod.fst = .ok true := rfl
  rw [h3] at h4
  simp [Except.map] at h4

/-- C9 as amended: on a holder whose registry is `m` and whose `hashFunc` gives
the digest `d` of the token, after `Drop(token)` and any further run of
`Checkout`, `Drop`, `CheckoutAndDrop`, sweep and `New` operations in which no
`New` returns a token whose digest is `d`, `Checkout(token)` returns false (and
changes nothing) at every clock reading; the empty run is `Checkout` right
after `Drop`. -/
theorem dropped_stays_invalid (t : TokenHolder) (token : GoString) (m : Registry)
    (d : GoString) (t1 t2 : TokenHolder) (ops : List Op) (rets : List Ret)
    (now₁ now₂ : Time) (hm : t.tokens = some m) (hd : t.hashFunc token = .ok d)
    (hdrop : t.Drop token = .ok t1) (hrun : run t1 ops = .ok (rets, t2))
    (hnew : ∀ tok, Ret.token tok ∈ rets → t.hashFunc tok ≠ .ok d) :
    t2.Checkout token now₁ now₂ = .ok (false, t2) := by
  rw [TokenHolder.Drop_eq t token m d hm hd] at hdrop
  simp only [Except.ok.injEq] at hdrop
  subst hdrop
  have h0 : TokenHolder.Absent t { t with tokens := some (m.delete d) } d :=
    ⟨rfl, rfl, m.delete d, rfl, by simp [Registry.get_delete]⟩
  have h2 := TokenHolder.run_absent t d ops _ t2 rets h0 hrun hnew
  obtain ⟨m2, hm2, hg2⟩ := h2.2.2
  have hd2 : t2.hashFunc token = .ok d := by rw [h2.hashFunc token]; exact hd
  rw [TokenHolder.Checkout_eq t2 token now₁ now₂ m2 d hm2 hd2]
  simp [hg2]

theorem dropped_stays_invalid_witness :
    (∀ tok, Ret.token tok ∈ [Ret.token [66, 66], Ret.unit, Ret.flag false] →
        issuedAB.hashFunc tok ≠ .ok [56, 51]) ∧
      reissuedBB.Checkout [65, 66] 125 125 = .ok (false, reissuedBB) :=
  have hnew : ∀ tok, Ret.token tok ∈ [Ret.token [66, 66], Ret.unit, Ret.flag false] →
      issuedAB.hashFunc tok ≠ .ok [56, 51] := by
    intro tok htok
    simp only [List.mem_cons, Ret.token.injEq, List.mem_singleton, reduceCtorEq, or_false,
      List.not_mem_nil] at htok
    subst htok
    have e : issuedAB.hashFunc [66, 66] = .ok [56, 52] := rfl
    rw [e]
    simp
  ⟨hnew,
   dropped_stays_invalid issuedAB [65, 66] (Registry.empty.set [56, 51] 110) [56, 51]
     droppedAB reissuedBB
     [Op.new allocLimit [constAttempt 18] 120, Op.sweep 121, Op.checkout [65, 66] 122 122]
     [Ret.token [66, 66], Ret.unit, Ret.flag false] 125 125 rfl rfl rfl rfl hnew⟩

/-- C10: on a holder whose registry is `m` and whose `hashFunc` gives the digest
`d` of the token, `Drop` changes nothing but the registry, which afterwards
does not hold `d` and holds exactly the records of `m` under the other keys,
whatever the expiry of the removed record; when `m` does not hold `d` the
registry is `m` itself. -/
theorem drop_removes_only_digest (t : TokenHolder) (token : GoString) (m : Registry)
    (d : GoString) (hm : t.tokens = some m) (hd : t.hashFunc token = .ok d) :
    ∃ m', t.Drop token = .ok { t with tokens := some m' } ∧
      m'.get d = none ∧ (∀ k, k ≠ d → m'.get k = m.get k) ∧
      (∀ e, e ∈ m'.entries ↔ e ∈ m.entries ∧ e.1 ≠ d) ∧
      (m.get d = none → m' = m) := by
  refine ⟨m.delete d, TokenHolder.Drop_eq t token m d hm hd, ?_, ?_, ?_, ?_⟩
  · simp [Registry.get_delete]
  · intro k hk
    simp [Registry.get_delete, hk]
  · exact TokenHolder.mem_delete_entries m d
  · exact Registry.delete_eq_self m d

theorem drop_removes_only_digest_witness :
    ∃ m', issuedAA.Drop [65, 65] = .ok { issuedAA with tokens := some m' } ∧
      m'.get [56, 50] = none ∧
      (∀ k, k ≠ [56, 50] → m'.get k = (Registry.empty.set [56, 50] 110).get k) ∧
      (∀ e, e ∈ m'.entries ↔ e ∈ (Registry.empty.set [56, 50] 110).entries ∧ e.1 ≠ [56, 50]) ∧
      ((Registry.empty.set [56, 50] 110).get [56, 50] = none →
        m' = Registry.empty.set [56, 50] 110) :=
  drop_removes_only_digest issuedAA [65, 65] (Registry.empty.set [56, 50] 110) [56, 50]
    rfl rfl

/-! ## Lemmas on the generator -/

namespace TokenHolder

theorem cryptoRandLoop_length (draw : Nat → Option (Fin 75)) (k i : Nat) (buf : GoString) :
    (cryptoRandLoop draw k i buf).1.length = buf.length := by
  induction k generalizing i buf with
  | zero => rfl
  | succ k ih =>
    simp only [cryptoRandLoop]
    cases draw i with
    | none => rfl
    | some n => simp only [ih, List.length_set]

theorem randLoop_length (draw : Nat → Fin 75) (k i : Nat) (buf : GoString) :
    (randLoop draw k i buf).length = buf.length := by
  induction k generalizing i buf with
  | zero => rfl
  | succ k ih => simp only [randLoop, ih, List.length_set]

theorem byte_in_alphabet (n : Fin 75) : 48 ≤ (n.val + 48) % 256 ∧ (n.val + 48) % 256 ≤ 122 := by
  have := n.isLt
  omega

/-- The bytes written so far are in the alphabet: the invariant of both
generation loops. -/
theorem cryptoRandLoop_alphabet (draw : Nat → Option (Fin 75)) (k i : Nat) (buf : GoString)
    (hinv : ∀ j b, j < i → buf[j]? = some b → 48 ≤ b ∧ b ≤ 122)
    (hok : (cryptoRandLoop draw k i buf).2 = true) :
    ∀ j b, j < i + k → (cryptoRandLoop draw k i buf).1[j]? = some b → 48 ≤ b ∧ b ≤ 122 := by
  induction k generalizing i buf with
  | zero => exact hinv
  | succ k ih =>
    simp only [cryptoRandLoop] at hok ⊢
    cases hd : draw i with
    | none => simp [hd] at hok
    | some n =>
      simp only [hd] at hok ⊢
      intro j b hj
      have hj' : j < (i + 1) + k := by omega
      refine ih (i + 1) (buf.set i ((n.val + 48) % 256)) ?_ hok j b hj'
      intro j' b' hj1 hb'
      rw [List.getElem?_set] at hb'
      by_cases hij : i = j'
      · simp only [hij, if_true] at hb'
        split at hb'
        · simp only [Option.some.injEq] at hb'
          rw [← hb']
          exact byte_in_alphabet n
        · simp at hb'
      · simp only [hij, if_false] at hb'
        exact hinv j' b' (by omega) hb'

theorem randLoop_alphabet (draw : Nat → Fin 75) (k i : Nat) (buf : GoString)
    (hinv : ∀ j b, j < i → buf[j]? = some b → 48 ≤ b ∧ b ≤ 122) :
    ∀ j b, j < i + k → (randLoop draw k i buf)[j]? = some b → 48 ≤ b ∧ b ≤ 122 := by
  induction k generalizing i buf with
  | zero => exact hinv
  | succ k ih =>
    simp only [randLoop]
    intro j b hj
    have hj' : j < (i + 1) + k := by omega
    refine ih (i + 1) (buf.set i (((draw i).val + 48) % 256)) ?_ j b hj'
    intro j' b' hj1 hb'
    rw [List.getElem?_set] at hb'
    by_cases hij : i = j'
    · simp only [hij, if_true] at hb'
      split at hb'
      · simp only [Option.some.injEq] at hb'
        rw [← hb']
        exact byte_in_alphabet (draw j')
      · simp at hb'
    · simp only [hij, if_false] at hb'
      exact hinv j' b' (by omega) hb'

/-- Every candidate of `New` has the length of the buffer and only bytes of the
alphabet `48..122`, whether the secure source or the fallback filled it. -/
theorem candidate_wellformed (t : TokenHolder) (a : Attempt) (buf : GoString) :
    (candidate t a buf).1.length = buf.length ∧
      ∀ b ∈ (candidate t a buf).1, 48 ≤ b ∧ b ≤ 122 := by
  unfold candidate
  rcases hc : makeTokenCryptoRand a.crypto buf with ⟨buf1, ok⟩
  have hlen1 : buf1.length = buf.length := by
    have := cryptoRandLoop_length a.crypto buf.length 0 buf
    unfold makeTokenCryptoRand at hc
    rw [hc] at this
    exact this
  cases ok with
  | true =>
    simp only
    refine ⟨hlen1, ?_⟩
    intro b hb
    obtain ⟨j, hj⟩ := List.mem_iff_getElem?.mp hb
    have hjl : j < buf1.length := by
      by_contra hge
      rw [List.getElem?_eq_none (by omega)] at hj
      simp at hj
    have h := cryptoRandLoop_alphabet a.crypto buf.length 0 buf (by intro j b hj; omega)
      (by unfold makeTokenCryptoRand at hc; rw [hc])
    unfold makeTokenCryptoRand at hc
    rw [hc] at h
    exact h j b (by omega) hj
  | false =>
    simp only
    have hlen2 : (makeTokenRand a.fallback buf1).length = buf1.length :=
      randLoop_length a.fallback buf1.length 0 buf1
    refine ⟨by rw [hlen2, hlen1], ?_⟩
    intro b hb
    obtain ⟨j, hj⟩ := List.mem_iff_getElem?.mp hb
    have hjl : j < (makeTokenRand a.fallback buf1).length := by
      by_contra hge
      rw [List.getElem?_eq_none (by omega)] at hj
      simp at hj
    exact randLoop_alphabet a.fallback buf1.length 0 buf1 (by intro j b hj; omega) j b
      (by omega) hj

theorem cryptoRandLoop_flag (draw : Nat → Option (Fin 75)) (k i : Nat) (b b' : GoString) :
    (cryptoRandLoop draw k i b).2 = (cryptoRandLoop draw k i b').2 := by
  induction k generalizing i b b' with
  | zero => rfl
  | succ k ih =>
    simp only [cryptoRandLoop]
    cases draw i with
    | none => rfl
    | some n => exact ih _ _ _

theorem set_agree (b b' : GoString) (i : Nat) (v : Nat) (hlen : b.length = b'.length)
    (hag : ∀ j, j < i → b[j]? = b'[j]?) :
    ∀ j, j < i + 1 → (b.set i v)[j]? = (b'.set i v)[j]? := by
  intro j hj
  rw [List.getElem?_set, List.getElem?_set, hlen]
  by_cases hij : i = j
  · simp only [hij, if_true]
  · simp only [hij, if_false]
    exact hag j (by omega)

theorem cryptoRandLoop_agree (draw : Nat → Option (Fin 75)) (k i : Nat) (b b' : GoString)
    (hlen : b.length = b'.length) (hag : ∀ j, j < i → b[j]? = b'[j]?)
    (hok : (cryptoRandLoop draw k i b).2 = true) :
    ∀ j, j < i + k → (cryptoRandLoop draw k i b).1[j]? = (cryptoRandLoop draw k i b').1[j]? := by
  induction k generalizing i b b' with
  | zero => exact hag
  | succ k ih =>
    simp only [cryptoRandLoop] at hok ⊢
    cases hd : draw i with
    | none => simp [hd] at hok
    | some n =>
      simp only [hd] at hok ⊢
      intro j hj
      exact ih (i + 1) _ _ (by simp only [List.length_set, hlen])
        (set_agree b b' i _ hlen hag) hok j (by omega)

theorem randLoop_agree (draw : Nat → Fin 75) (k i : Nat) (b b' : GoString)
    (hlen : b.length = b'.length) (hag : ∀ j, j < i → b[j]? = b'[j]?) :
    ∀ j, j < i + k → (randLoop draw k i b)[j]? = (randLoop draw k i b')[j]? := by
  induction k generalizing i b b' with
  | zero => exact hag
  | succ k ih =>
    simp only [randLoop]
    intro j hj
    exact ih (i + 1) _ _ (by simp only [List.length_set, hlen])
      (set_agree b b' i _ hlen hag) j (by omega)

theorem eq_of_agree (b b' : GoString) (hlen : b.length = b'.length)
    (hag : ∀ j, j < b.length → b[j]? = b'[j]?) : b = b' := by
  apply List.ext_getElem?
  intro j
  by_cases hj : j < b.length
  · exact hag j hj
  · rw [List.getElem?_eq_none (by omega), List.getElem?_eq_none (by omega)]

theorem makeTokenRand_indep (draw : Nat → Fin 75) (b b' : GoString)
    (hlen : b.length = b'.length) : makeTokenRand draw b = makeTokenRand draw b' := by
  unfold makeTokenRand
  apply eq_of_agree
  · rw [randLoop_length, randLoop_length, hlen]
  · intro j hj
    rw [randLoop_length] at hj
    rw [← hlen]
    exact randLoop_agree draw b.length 0 b b' hlen (by intro j hj; omega) j (by omega)

/-- The candidate of a pass does not depend on what the buffer held before the
pass, nor on the holder. -/
theorem candidate_indep (t t' : TokenHolder) (a : Attempt) (b b' : GoString)
    (hlen : b.length = b'.length) : (candidate t a b).1 = (candidate t' a b').1 := by
  unfold candidate
  have hflag := cryptoRandLoop_flag a.crypto b.length 0 b b'
  have hl1 := cryptoRandLoop_length a.crypto b.length 0 b
  have hl2 := cryptoRandLoop_length a.crypto b.length 0 b'
  unfold makeTokenCryptoRand
  rw [← hlen]
  rcases hc : cryptoRandLoop a.crypto b.length 0 b with ⟨buf1, ok⟩
  rcases hc' : cryptoRandLoop a.crypto b.length 0 b' with ⟨buf1', ok'⟩
  rw [hc, hc'] at hflag
  rw [hc] at hl1
  rw [hc'] at hl2
  simp only at hflag hl1 hl2
  subst hflag
  cases ok with
  | true =>
    simp only
    apply eq_of_agree
    · rw [hl1, hl2, hlen]
    · intro j hj
      have h := cryptoRandLoop_agree a.crypto b.length 0 b b' hlen (by intro j hj; omega)
        (by rw [hc]) j (by omega)
      rw [hc, hc'] at h
      exact h
  | false =>
    simp only
    exact makeTokenRand_indep a.fallback buf1 buf1' (by rw [hl1, hl2, hlen])

/-- A token returned by the loop of `New` has the length of the buffer and only
bytes of the alphabet. -/
theorem newLoop_wellformed (now : Time) (src : List Attempt) (buf : GoString)
    (t : TokenHolder) (tok : GoString) (t' : TokenHolder)
    (h : newLoop now src buf t = .ok (tok, t')) :
    tok.length = buf.length ∧ ∀ b ∈ tok, 48 ≤ b ∧ b ≤ 122 := by
  induction src generalizing buf t with
  | nil => simp [newLoop] at h
  | cons a rest ih =>
    have hw := candidate_wellformed t a buf
    rcases hc : candidate t a buf with ⟨nt, t1⟩
    rw [hc] at hw
    simp only at hw
    simp only [newLoop, hc] at h
    cases hg : t1.tokens.bind (fun m => m.get nt) with
    | none =>
      simp only [hg] at h
      cases hh : t1.hashFunc nt with
      | error e => simp [hh] at h
      | ok d =>
        simp only [hh] at h
        cases hm : t1.tokens with
        | none => simp [hm] at h
        | some m =>
          simp only [hm, Except.ok.injEq, Prod.mk.injEq] at h
          rw [← h.1]
          exact hw
    | some v =>
      simp only [hg] at h
      obtain ⟨h1, h2⟩ := ih nt t1 h
      exact ⟨by rw [h1, hw.1], h2⟩

/-- The loop of `New` returns as soon as the list holds a pass whose candidate
is not a key of the registry. -/
theorem newLoop_returns (now : Time) (src : List Attempt) (buf : GoString) (t : TokenHolder)
    (m : Registry) (hf : GoString → GoString) (hm : t.tokens = some m)
    (hs : t.hashFuncSet = true) (hh : t.hashImpl = some hf)
    (hex : ∃ a ∈ src, m.get (candidate t a buf).1 = none) :
    ∃ tok t', newLoop now src buf t = .ok (tok, t') := by
  induction src generalizing buf t with
  | nil =>
    obtain ⟨a, ha, _⟩ := hex
    simp at ha
  | cons a rest ih =>
    have hdig : ∀ x, t.hashFunc x = .ok (hexEncodeToString (hf x)) := by
      intro x
      simp [hashFunc, hs, hh]
    cases hg : m.get (candidate t a buf).1 with
    | none =>
      exact ⟨_, _, newLoop_head now a rest buf t m _ hm hg (hdig _)⟩
    | some v =>
      obtain ⟨b, hb⟩ := candidate_snd t a buf
      have hw := candidate_wellformed t a buf
      rcases hc : candidate t a buf with ⟨nt, t1⟩
      rw [hc] at hb hg hw
      simp only at hb hg hw
      subst hb
      have hrest : ∃ a' ∈ rest, m.get (candidate
          ({ t with tokenHolderCryptoReaderError := b } : TokenHolder) a' nt).1 = none := by
        obtain ⟨a', ha', hna'⟩ := hex
        rcases List.mem_cons.mp ha' with heq | hmem
        · subst heq
          rw [hc] at hna'
          simp only at hna'
          rw [hg] at hna'
          simp at hna'
        · refine ⟨a', hmem, ?_⟩
          rw [candidate_indep _ t a' nt buf hw.1]
          exact hna'
      obtain ⟨tok, t', hres⟩ := ih nt { t with tokenHolderCryptoReaderError := b } hm hs hh hrest
      refine ⟨tok, t', ?_⟩
      rw [← hres]
      simp only [newLoop, hc, hm, Option.bind, hg]

end TokenHolder

/-- C11 as stated fails for a token length above what `make` allocates: with
the token length `2 ^ 62` and the allocation limit `2 ^ 48` of the runtime,
`make([]byte, n)` panics on line 31 and `New` returns no token, although the
registry is empty and a candidate is at hand. -/
theorem new_panics_above_allocation_limit :
    ¬ ∀ (t : TokenHolder) (m : Registry) (hf : GoString → GoString) (maxLen : Nat)
        (src : List Attempt) (now : Time), t.tokens = some m → t.hashFuncSet = true →
        t.hashImpl = some hf → 0 ≤ t.tokenLength →
        (∃ a ∈ src, m.get (TokenHolder.candidate t a
          (List.replicate t.tokenLength.toNat 0)).1 = none) →
        ∃ tok t', t.New maxLen src now = .ok (tok, t') ∧
          (tok.length : Int) = t.tokenLength ∧ ∀ b ∈ tok, 48 ≤ b ∧ b ≤ 122 := by
  intro hclaim
  obtain ⟨tok, t', h, _⟩ := hclaim hugeLength Registry.empty sum8 allocLimit
    [constAttempt 17] 100 rfl rfl rfl (by decide)
    ⟨constAttempt 17, List.mem_singleton.mpr rfl, Registry.get_empty _⟩
  have hpanic : hugeLength.New allocLimit [constAttempt 17] 100 = .error .makeSliceLen := by
    have hcond : hugeLength.tokenLength < 0 ∨ (allocLimit : Int) < hugeLength.tokenLength :=
      Or.inr (by decide)
    simp only [TokenHolder.New, hcond, if_true]
  rw [hpanic] at h
  simp at h

/-- C11 as amended: on a started holder (registry `m`, hash installed) with a
token length `n` with `0 ≤ n` and `n` not above the largest length `maxLen`
that `make([]byte, n)` allocates, for every list of passes, whatever the secure
source and the fallback source return in them: a token returned by `New` has
exactly `n` bytes, each in `48..122`; and `New` does return when the list holds
a pass whose candidate is not a key of the registry. -/
theorem new_token_length_and_alphabet (t : TokenHolder) (m : Registry)
    (hf : GoString → GoString) (maxLen : Nat) (src : List Attempt) (now : Time)
    (hm : t.tokens = some m) (hs : t.hashFuncSet = true) (hh : t.hashImpl = some hf)
    (hn : 0 ≤ t.tokenLength) (hL : t.tokenLength ≤ maxLen) :
    (∀ tok t', t.New maxLen src now = .ok (tok, t') →
        (tok.length : Int) = t.tokenLength ∧ ∀ b ∈ tok, 48 ≤ b ∧ b ≤ 122) ∧
      ((∃ a ∈ src, m.get (TokenHolder.candidate t a
          (List.replicate t.tokenLength.toNat 0)).1 = none) →
        ∃ tok t', t.New maxLen src now = .ok (tok, t')) := by
  have hnot : ¬ (t.tokenLength < 0 ∨ (maxLen : Int) < t.tokenLength) := by
    intro h
    rcases h with h | h
    · exact absurd hn (not_le.mpr h)
    · exact absurd hL (not_le.mpr h)
  constructor
  · intro tok t' hnew
    simp only [TokenHolder.New, hnot, if_false] at hnew
    obtain ⟨h1, h2⟩ := TokenHolder.newLoop_wellformed _ _ _ _ _ _ hnew
    refine ⟨?_, h2⟩
    rw [h1, List.length_replicate]
    exact Int.toNat_of_nonneg hn
  · intro hex
    simp only [TokenHolder.New, hnot, if_false]
    exact TokenHolder.newLoop_returns now src _ t m hf hm hs hh hex

theorem new_token_length_and_alphabet_witness :
    (∀ tok t', started0.New allocLimit [failingAttempt] 100 = .ok (tok, t') →
        (tok.length : Int) = started0.tokenLength ∧ ∀ b ∈ tok, 48 ≤ b ∧ b ≤ 122) ∧
      ((∃ a ∈ [failingAttempt], Registry.empty.get (TokenHolder.candidate started0 a
          (List.replicate started0.tokenLength.toNat 0)).1 = none) →
        ∃ tok t', started0.New allocLimit [failingAttempt] 100 = .ok (tok, t')) :=
  new_token_length_and_alphabet started0 Registry.empty sum8 allocLimit [failingAttempt] 100
    rfl rfl rfl (by decide) (by decide)

theorem issuedSec_eq :
    startedSec.New allocLimit [constAttempt 17] 0 = .ok ([65, 65], issuedSec) := rfl

theorem issued9a_eq :
    started0.New allocLimit [pairAttempt 9 49] 100 = .ok ([57, 97], issued9a) := rfl

/-- The run of a sliding schedule: while the record of the digest is alive
with an expiry of at least `last + D`, or the clock is already past `last + D`
(and then the schedule has no checkout left), every checkout returns true. -/
theorem sliding_run (token d : GoString) (D : Int) (ops : List Op) :
    ∀ (last clock : Time) (t : TokenHolder) (m : Registry), t.tokens = some m →
      t.hashFunc token = .ok d → t.validExpiredDuration = D →
      SlidingSchedule token D last clock ops →
      ((∃ e, m.get d = some e ∧ last + D ≤ e) ∨ last + D < clock) →
      ∃ t2, run t ops = .ok (ops.map slidingRet, t2) := by
  induction ops with
  | nil =>
    intro last clock t m _ _ _ _ _
    exact ⟨t, rfl⟩
  | cons op rest ih =>
    intro last clock t m hm hd hD hs hinv
    cases op with
    | new maxLen src now => simp [SlidingSchedule] at hs
    | drop tok => simp [SlidingSchedule] at hs
    | checkoutAndDrop tok a b => simp [SlidingSchedule] at hs
    | checkout tok a b =>
      simp only [SlidingSchedule] at hs
      obtain ⟨htok, hca, hab, hgap, hrest⟩ := hs
      subst htok
      rcases hinv with ⟨e, he, hle⟩ | hpast
      · have hnlt : ¬ e < a := by linarith
        have hstep : step t (.checkout tok a b) =
            .ok (.flag true, { t with tokens := some (m.set d (b + t.validExpiredDuration)) }) := by
          simp only [step, TokenHolder.Checkout_eq t tok a b m d hm hd, he, hnlt, if_false]
        obtain ⟨t2, h2⟩ := ih a b
          { t with tokens := some (m.set d (b + t.validExpiredDuration)) }
          (m.set d (b + t.validExpiredDuration)) rfl hd hD hrest
          (Or.inl ⟨b + t.validExpiredDuration, by simp [Registry.get_set], by linarith⟩)
        refine ⟨t2, ?_⟩
        simp only [run, hstep, h2, List.map_cons, slidingRet]
      · linarith
    | sweep c =>
      simp only [SlidingSchedule] at hs
      obtain ⟨hcc, hrest⟩ := hs
      have hstep : step t (.sweep c) = .ok (.unit, { t with tokens := some (m.sweep c) }) := by
        simp only [step, TokenHolder.reaperTick, hm, Option.map]
      have hinv' : (∃ e, (m.sweep c).get d = some e ∧ last + D ≤ e) ∨ last + D < c := by
        rcases hinv with ⟨e, he, hle⟩ | hpast
        · by_cases hec : e < c
          · exact Or.inr (by linarith)
          · exact Or.inl ⟨e, by simp [Registry.get_sweep, he, Option.filter, hec], hle⟩
        · exact Or.inr (by linarith)
      obtain ⟨t2, h2⟩ := ih last c { t with tokens := some (m.sweep c) } (m.sweep c) rfl hd hD
        hrest hinv'
      refine ⟨t2, ?_⟩
      simp only [run, hstep, h2, List.map_cons, slidingRet]

/-- The sliding window where no cancelled reaper is at work: when `New`, called
at time `t0` on a holder with validity `D`, returns the token `tok`, then in
every run of checkouts of `tok` and reaper ticks that follows a sliding
schedule every checkout returns true, however far the last one is from `t0`.
The passes of a reaper whose context is cancelled are not part of such a
run. -/
theorem sliding_window_checkouts (t : TokenHolder) (maxLen : Nat) (src : List Attempt) (t0 : Time)
    (tok : GoString) (t' : TokenHolder) (ops : List Op)
    (hnew : t.New maxLen src t0 = .ok (tok, t'))
    (hsched : SlidingSchedule tok t.validExpiredDuration t0 t0 ops) :
    ∃ t2, run t' ops = .ok (ops.map slidingRet, t2) := by
  obtain ⟨b, m, d, hm, hd, _, ht'⟩ := TokenHolder.New_ok t maxLen src t0 tok t' hnew
  subst ht'
  exact sliding_run tok d t.validExpiredDuration ops t0 t0 _
    (m.set d (t0 + t.validExpiredDuration)) rfl hd rfl hsched
    (Or.inl ⟨t0 + t.validExpiredDuration, by simp [Registry.get_set], le_refl _⟩)

theorem sliding_window_checkouts_witness :
    SlidingSchedule [65, 65] startedSec.validExpiredDuration 0 0
        [Op.checkout [65, 65] 900000000 900000000, Op.sweep 1500000000,
          Op.checkout [65, 65] 1800000000 1800000000] ∧
      ∃ t2, run issuedSec
          [Op.checkout [65, 65] 900000000 900000000, Op.sweep 1500000000,
            Op.checkout [65, 65] 1800000000 1800000000] =
        .ok ([Ret.flag true, Ret.unit, Ret.flag true], t2) :=
  have hsched : SlidingSchedule [65, 65] startedSec.validExpiredDuration 0 0
      [Op.checkout [65, 65] 900000000 900000000, Op.sweep 1500000000,
        Op.checkout [65, 65] 1800000000 1800000000] :=
    ⟨rfl, by decide, by decide, by decide, by decide, rfl, by decide, by decide, by decide,
      trivial⟩
  ⟨hsched,
   sliding_window_checkouts startedSec allocLimit [constAttempt 17] 0 [65, 65] issuedSec _
     issuedSec_eq hsched⟩

theorem hasDigest_eq (t0 : TokenHolder) (tok d d0 : GoString)
    (h : t0.hashFunc tok = .ok d0) : hasDigest t0 tok d = decide (d0 = d) := by
  simp only [hasDigest, h]

theorem Registry.get_sweep_some (m : Registry) (c : Time) (k : GoString) (e : Time)
    (h : (m.sweep c).get k = some e) : m.get k = some e := by
  rw [Registry.get_sweep] at h
  cases hg : m.get k with
  | none => simp [hg, Option.filter] at h
  | some v =>
    simp only [hg, Option.filter] at h
    split at h
    · exact h
    · simp at h

/-- One operation that does not write the digest `d` leaves a record of `d`
with the expiry it had, or removes it. -/
theorem step_expiryInv (t0 t t' : TokenHolder) (d : GoString) (E : Time) (op : Op) (r : Ret)
    (hinv : TokenHolder.ExpiryInv t0 t d E) (hstep : step t op = .ok (r, t'))
    (hw : writesDigest t0 d (op, r) = false) : TokenHolder.ExpiryInv t0 t' d E := by
  obtain ⟨hi, hs, m, hm, hrec⟩ := hinv
  have hcong : ∀ token, t0.hashFunc token = t.hashFunc token :=
    fun token => (TokenHolder.hashFunc_congr t0 t hi hs token).symm
  have hdel : ∀ d0 e, (m.delete d0).get d = some e → e = E := by
    intro d0 e he
    simp only [Registry.get_delete] at he
    split at he
    · simp at he
    · exact hrec e he
  cases op with
  | new maxLen src now =>
    simp only [step] at hstep
    cases hN : t.New maxLen src now with
    | error e => simp [hN] at hstep
    | ok p =>
      obtain ⟨tok, t1⟩ := p
      simp only [hN, Except.ok.injEq, Prod.mk.injEq] at hstep
      obtain ⟨hr, ht1⟩ := hstep
      subst hr ht1
      obtain ⟨b, m0, d0, hm0, hd0, _, ht1⟩ := TokenHolder.New_ok t maxLen src now tok t1 hN
      subst ht1
      rw [hm] at hm0
      simp only [Option.some.injEq] at hm0
      subst hm0
      simp only [writesDigest, hasDigest_eq t0 tok d d0 ((hcong tok).trans hd0),
        decide_eq_false_iff_not] at hw
      have hne : ¬ d = d0 := fun h => hw h.symm
      refine ⟨hi, hs, _, rfl, ?_⟩
      intro e he
      simp only [Registry.get_set, hne, if_false] at he
      exact hrec e he
  | checkout token now₁ now₂ =>
    simp only [step] at hstep
    cases hh : t.hashFunc token with
    | error e => simp [TokenHolder.Checkout, hh] at hstep
    | ok d0 =>
      rw [TokenHolder.Checkout_eq t token now₁ now₂ m d0 hm hh] at hstep
      cases hv : m.get d0 with
      | none =>
        simp only [hv, Except.ok.injEq, Prod.mk.injEq] at hstep
        obtain ⟨_, ht1⟩ := hstep
        subst ht1
        exact ⟨hi, hs, m, hm, hrec⟩
      | some v =>
        by_cases hlt : v < now₁
        · simp only [hv, hlt, if_true, Except.ok.injEq, Prod.mk.injEq] at hstep
          obtain ⟨_, ht1⟩ := hstep
          subst ht1
          exact ⟨hi, hs, _, rfl, hdel d0⟩
        · simp only [hv, hlt, if_false, Except.ok.injEq, Prod.mk.injEq] at hstep
          obtain ⟨hr, ht1⟩ := hstep
          subst hr ht1
          simp only [writesDigest, hasDigest_eq t0 token d d0 ((hcong token).trans hh),
            decide_eq_false_iff_not] at hw
          have hne : ¬ d = d0 := fun h => hw h.symm
          refine ⟨hi, hs, _, rfl, ?_⟩
          intro e he
          simp only [Registry.get_set, hne, if_false] at he
          exact hrec e he
  | drop token =>
    simp only [step] at hstep
    cases hh : t.hashFunc token with
    | error e => simp [TokenHolder.Drop, hh] at hstep
    | ok d0 =>
      rw [TokenHolder.Drop_eq t token m d0 hm hh] at hstep
      simp only [Except.ok.injEq, Prod.mk.injEq] at hstep
      obtain ⟨_, ht1⟩ := hstep
      subst ht1
      exact ⟨hi, hs, _, rfl, hdel d0⟩
  | checkoutAndDrop token now₁ now₂ =>
    simp only [step] at hstep
    cases hh : t.hashFunc token with
    | error e => simp [TokenHolder.CheckoutAndDrop, TokenHolder.Checkout, hh] at hstep
    | ok d0 =>
      rw [TokenHolder.CheckoutAndDrop_eq t token now₁ now₂ m d0 hm hh] at hstep
      cases hv : m.get d0 with
      | none =>
        simp only [hv, Except.ok.injEq, Prod.mk.injEq] at hstep
        obtain ⟨_, ht1⟩ := hstep
        subst ht1
        exact ⟨hi, hs, m, hm, hrec⟩
      | some v =>
        by_cases hlt : v < now₁
        · simp only [hv, hlt, if_true, Except.ok.injEq, Prod.mk.injEq] at hstep
          obtain ⟨_, ht1⟩ := hstep
          subst ht1
          exact ⟨hi, hs, _, rfl, hdel d0⟩
        · simp only [hv, hlt, if_false, Except.ok.injEq, Prod.mk.injEq] at hstep
          obtain ⟨_, ht1⟩ := hstep
          subst ht1
          refine ⟨hi, hs, _, rfl, ?_⟩
          intro e he
          simp only [Registry.get_delete] at he
          split at he
          · simp at he
          · rename_i hne
            simp only [Registry.get_set, hne, if_false] at he
            exact hrec e he
  | sweep c =>
    simp only [step, Except.ok.injEq, Prod.mk.injEq] at hstep
    obtain ⟨_, ht1⟩ := hstep
    subst ht1
    refine ⟨hi, hs, m.sweep c, by simp [TokenHolder.reaperTick, hm], ?_⟩
    intro e he
    exact hrec e (Registry.get_sweep_some m c d e he)

/-- A run in which no operation writes the digest `d` leaves a record of `d`
with the expiry it had, or removes it. -/
theorem run_expiryInv (t0 : TokenHolder) (d : GoString) (E : Time) (ops : List Op) :
    ∀ (t t' : TokenHolder) (rets : List Ret), TokenHolder.ExpiryInv t0 t d E →
      run t ops = .ok (rets, t') →
      (∀ ev ∈ ops.zip rets, writesDigest t0 d ev = false) →
      TokenHolder.ExpiryInv t0 t' d E := by
  induction ops with
  | nil =>
    intro t t' rets hinv hrun _
    simp only [run, Except.ok.injEq, Prod.mk.injEq] at hrun
    obtain ⟨_, ht⟩ := hrun
    subst ht
    exact hinv
  | cons op ops ih =>
    intro t t' rets hinv hrun hw
    simp only [run] at hrun
    cases hs : step t op with
    | error e => simp [hs] at hrun
    | ok p =>
      obtain ⟨r, t1⟩ := p
      simp only [hs] at hrun
      cases hr : run t1 ops with
      | error e => simp [hr] at hrun
      | ok q =>
        obtain ⟨rs, t2⟩ := q
        simp only [hr, Except.ok.injEq, Prod.mk.injEq] at hrun
        obtain ⟨hrets, ht2⟩ := hrun
        subst hrets ht2
        have h1 := step_expiryInv t0 t t1 d E op r hinv hs
          (hw (op, r) (by simp [List.zip_cons_cons]))
        exact ih t1 t2 rs h1 hr (fun ev hev => hw ev (by simp [List.zip_cons_cons, hev]))

/-- C12, the code at a failing input: the holder has been restarted, which
cancelled the context of the first reaper.  `New` at time 100 issues `AA` with
validity 10, and the checkout at time 101 is within the sliding schedule and
would return true on the state `New` left; but the cancelled reaper, still in
its loop, takes its `ctx.Done()` branch in between and clears the registry, so
`Checkout(AA)` at time 101 returns false. -/
theorem sliding_checkout_false_on_restarted_store :
    restarted0.New allocLimit [constAttempt 17] 100 = .ok ([65, 65], restartedAA) ∧
      SlidingSchedule [65, 65] restarted0.validExpiredDuration 100 100
        [Op.checkout [65, 65] 101 101] ∧
      (restartedAA.Checkout [65, 65] 101 101).map Prod.fst = .ok true ∧
      reaperStep 0 restartedAA .done = some restarted0 ∧
      restarted0.Checkout [65, 65] 101 101 = .ok (false, restarted0) :=
  ⟨rfl, ⟨rfl, by decide, by decide, by decide, trivial⟩, rfl, rfl, rfl⟩

theorem redatedAB_eq :
    run issuedAB [Op.new allocLimit [pairAttempt 18 17] 105] =
      .ok ([Ret.token [66, 65]], redatedAB) := rfl

/-- C13 as stated fails in its second half when another token shares the
digest: `AB` is issued at time 100 with `D = 10` and never checked out, a `New`
at time 105 returns `BA`, whose digest is the digest `83` of `AB`, and after
the tick with snapshot `111 > 110` the record of `83` is still there (expiry
115). -/
theorem unchecked_token_present_after_late_tick :
    ¬ ∀ (s u t : TokenHolder) (maxLen : Nat) (src : List Attempt) (t0 c : Time)
        (tok d : GoString) (ops : List Op) (rets : List Ret) (m1 : Registry),
        s.New maxLen src t0 = .ok (tok, u) → u.hashFunc tok = .ok d →
        run u ops = .ok (rets, t) →
        (∀ op ∈ ops, ∀ a b, op ≠ Op.checkout tok a b ∧ op ≠ Op.checkoutAndDrop tok a b) →
        t0 + s.validExpiredDuration < c → (t.reaperTick c).tokens = some m1 →
        m1.get d = none := by
  intro hclaim
  have h := hclaim started0 issuedAB redatedAB allocLimit [pairAttempt 17 18] 100 111
    [65, 66] [56, 51] [Op.new allocLimit [pairAttempt 18 17] 105] [Ret.token [66, 65]]
    (((Registry.empty.set [56, 51] 110).set [56, 51] 115).sweep 111)
    issuedAB_eq rfl redatedAB_eq
    (by
      intro op hop a b
      simp only [List.mem_singleton] at hop
      subst hop
      exact ⟨fun h => Op.noConfusion h, fun h => Op.noConfusion h⟩)
    (by decide) rfl
  have h2 : (((Registry.empty.set [56, 51] 110).set [56, 51] 115).sweep 111).get [56, 51] =
      some 115 := rfl
  rw [h] at h2
  simp at h2

/-- C13 as amended: on a holder whose registry is `m`, one reaper tick with
snapshot `c` changes nothing but the registry, whose records afterwards are
exactly the records of `m` with an expiry that is not before `c` (none added,
none re-dated); so when the holder was reached from the state a `New` issuing
`tok` at time `t0` left, by a run in which no `New` returned a token with the
digest of `tok` and no `Checkout` of such a token returned true, and `c` is
after `t0 + D`, the digest of `tok` is absent after the tick. -/
theorem reaper_tick_restricts (t : TokenHolder) (m : Registry) (c : Time)
    (hm : t.tokens = some m) :
    ∃ m', t.reaperTick c = { t with tokens := some m' } ∧
      (∀ e, e ∈ m'.entries ↔ e ∈ m.entries ∧ ¬ e.2 < c) ∧
      (∀ k, m'.get k = (m.get k).filter (fun v => !decide (v < c))) ∧
      (∀ (s u : TokenHolder) (maxLen : Nat) (src : List Attempt) (t0 : Time)
        (tok d : GoString) (ops : List Op) (rets : List Ret),
        s.New maxLen src t0 = .ok (tok, u) → u.hashFunc tok = .ok d →
        run u ops = .ok (rets, t) →
        (∀ ev ∈ ops.zip rets, writesDigest u d ev = false) →
        t0 + s.validExpiredDuration < c → m'.get d = none) := by
  refine ⟨m.sweep c, by simp only [TokenHolder.reaperTick, hm, Option.map],
    Registry.mem_sweep_entries m c, Registry.get_sweep m c, ?_⟩
  intro s u maxLen src t0 tok d ops rets hnew hd hrun hw hlt
  obtain ⟨b, m0, d0, _, hd0, _, hu⟩ := TokenHolder.New_ok s maxLen src t0 tok u hnew
  subst hu
  have hdd : (Except.ok d0 : Except Fault GoString) = .ok d := hd0.symm.trans hd
  simp only [Except.ok.injEq] at hdd
  subst hdd
  have h0 : TokenHolder.ExpiryInv
      ({ s with tokenHolderCryptoReaderError := b
                tokens := some (m0.set d0 (t0 + s.validExpiredDuration)) } : TokenHolder)
      { s with tokenHolderCryptoReaderError := b
               tokens := some (m0.set d0 (t0 + s.validExpiredDuration)) }
      d0 (t0 + s.validExpiredDuration) :=
    ⟨rfl, rfl, _, rfl, fun e he => by
      simp only [Registry.get_set, if_true, Option.some.injEq] at he
      exact he.symm⟩
  obtain ⟨_, _, m1, hm1, hrec⟩ := run_expiryInv _ d0 _ ops _ t rets h0 hrun hw
  rw [hm] at hm1
  simp only [Option.some.injEq] at hm1
  subst hm1
  rw [Registry.get_sweep]
  cases hg : m.get d0 with
  | none => rfl
  | some e =>
    have he := hrec e hg
    subst he
    simp [Option.filter, hlt]

theorem reaper_tick_restricts_witness :
    ∃ m', issuedAA.reaperTick 111 = { issuedAA with tokens := some m' } ∧
      (∀ e, e ∈ m'.entries ↔ e ∈ (Registry.empty.set [56, 50] 110).entries ∧ ¬ e.2 < 111) ∧
      (∀ k, m'.get k =
        ((Registry.empty.set [56, 50] 110).get k).filter (fun v => !decide (v < 111))) ∧
      (∀ (s u : TokenHolder) (maxLen : Nat) (src : List Attempt) (t0 : Time)
        (tok d : GoString) (ops : List Op) (rets : List Ret),
        s.New maxLen src t0 = .ok (tok, u) → u.hashFunc tok = .ok d →
        run u ops = .ok (rets, issuedAA) →
        (∀ ev ∈ ops.zip rets, writesDigest u d ev = false) →
        t0 + s.validExpiredDuration < 111 → m'.get d = none) :=
  reaper_tick_restricts issuedAA (Registry.empty.set [56, 50] 110) 111 rfl

theorem stoppedAA_eq : issuedAA.Stop = .ok stoppedAA := rfl

theorem restarted0_eq : started0.Start 10 5 2 (some sum8) = .ok restarted0 := rfl

theorem restartedAA_eq :
    restarted0.New allocLimit [constAttempt 17] 100 = .ok ([65, 65], restartedAA) := rfl

theorem TokenHolder.hashFunc_ok (t : TokenHolder) (token d : GoString)
    (h : t.hashFunc token = .ok d) :
    t.hashFuncSet = true ∧ ∃ hf, t.hashImpl = some hf ∧ d = hexEncodeToString (hf token) := by
  unfold TokenHolder.hashFunc at h
  split at h
  · rename_i hs
    refine ⟨hs, ?_⟩
    cases hi : t.hashImpl with
    | none => simp [hi] at h
    | some hf =>
      simp only [hi, Except.ok.injEq] at h
      exact ⟨hf, rfl, h.symm⟩
  · simp at h

/-- C14 as stated fails when a token is its own digest: under the hash `sum8`
the token `9a` has the digest `9a`, so after `New` returned `9a` the plaintext
is a key of the registry. -/
theorem new_plaintext_key_at_fixed_point :
    ¬ ∀ (t : TokenHolder) (maxLen : Nat) (src : List Attempt) (now : Time)
        (tok : GoString)
        (t' : TokenHolder) (m' : Registry), t.New maxLen src now = .ok (tok, t') →
        t'.tokens = some m' → m'.get tok = none := by
  intro hclaim
  have h := hclaim started0 allocLimit [pairAttempt 9 49] 100 [57, 97] issued9a
    (Registry.empty.set [57, 97] 110) issued9a_eq rfl
  simp [Registry.get_set] at h

/-- C14 as amended: when `New` returns the token `nt` at clock reading `now`,
the holder had a registry `m` and a hash, and the registry `New` leaves maps
the digest of `nt` (the hex encoding of the hash of `nt`) to
`now + validExpiredDuration` and agrees with `m` on every other key: `New`
writes under the digest and under no other key. -/
theorem new_inserts_under_digest (t : TokenHolder) (maxLen : Nat) (src : List Attempt)
    (now : Time) (nt : GoString) (t' : TokenHolder)
    (hnew : t.New maxLen src now = .ok (nt, t')) :
    ∃ m m' hf, t.tokens = some m ∧ t.hashImpl = some hf ∧ t'.tokens = some m' ∧
      t.hashFunc nt = .ok (hexEncodeToString (hf nt)) ∧
      m'.get (hexEncodeToString (hf nt)) = some (now + t.validExpiredDuration) ∧
      ∀ k, k ≠ hexEncodeToString (hf nt) → m'.get k = m.get k := by
  obtain ⟨b, m, d, hm, hd, _, ht'⟩ := TokenHolder.New_ok t maxLen src now nt t' hnew
  obtain ⟨_, hf, hi, hdd⟩ := TokenHolder.hashFunc_ok t nt d hd
  subst hdd
  subst ht'
  refine ⟨m, _, hf, hm, hi, rfl, hd, by simp [Registry.get_set], ?_⟩
  intro k hk
  simp [Registry.get_set, hk]

theorem new_inserts_under_digest_witness :
    ∃ m m' hf, started0.tokens = some m ∧ started0.hashImpl = some hf ∧
      issuedAA.tokens = some m' ∧
      started0.hashFunc [65, 65] = .ok (hexEncodeToString (hf [65, 65])) ∧
      m'.get (hexEncodeToString (hf [65, 65])) = some (100 + started0.validExpiredDuration) ∧
      ∀ k, k ≠ hexEncodeToString (hf [65, 65]) → m'.get k = m.get k :=
  new_inserts_under_digest started0 allocLimit [constAttempt 17] 100 [65, 65] issuedAA
    issuedAA_eq

/-- C15 as stated fails for a sweep interval that is not positive: `Start(10,
0, 2, sum8)` on the zero value panics in `time.NewTicker` and leaves no state
"after Start". -/
theorem start_nonpositive_interval_panics :
    ¬ ∀ (t : TokenHolder) (D S n : Int) (hash : Option (GoString → GoString)),
        ∃ t', t.Start D S n hash = .ok t' ∧ t'.tokens = some Registry.empty ∧
          t'.validExpiredDuration = D ∧ t'.tokenLength = n ∧
          ∀ token now₁ now₂, ∃ t2, t'.Checkout token now₁ now₂ = .ok (false, t2) := by
  intro hclaim
  obtain ⟨t', h1, _⟩ := hclaim TokenHolder.zero 10 0 2 (some sum8)
  simp [TokenHolder.Start] at h1

/-- C15 as amended: for every holder state and arguments `(D, S, n, h)` with a
positive sweep interval `S` and a hash `h` that is not nil, `Start` returns,
and afterwards the registry is empty, the validity is `D`, the token length is
`n`, and `Checkout` of every token returns false. -/
theorem start_resets (t : TokenHolder) (D S n : Int) (hf : GoString → GoString)
    (hS : 0 < S) :
    ∃ t', t.Start D S n (some hf) = .ok t' ∧ t'.tokens = some Registry.empty ∧
      t'.validExpiredDuration = D ∧ t'.tokenLength = n ∧
      ∀ token now₁ now₂, t'.Checkout token now₁ now₂ = .ok (false, t') := by
  have hnot : ¬ S ≤ 0 := not_le.mpr hS
  simp only [TokenHolder.Start, hnot, if_false]
  refine ⟨_, rfl, rfl, rfl, rfl, ?_⟩
  intro token now₁ now₂
  exact TokenHolder.Checkout_eq _ token now₁ now₂ Registry.empty
    (hexEncodeToString (hf token)) rfl rfl

theorem start_resets_witness :
    ∃ t', issuedAA.Start 20 7 3 (some sum8) = .ok t' ∧ t'.tokens = some Registry.empty ∧
      t'.validExpiredDuration = 20 ∧ t'.tokenLength = 3 ∧
      ∀ token now₁ now₂, t'.Checkout token now₁ now₂ = .ok (false, t') :=
  start_resets issuedAA 20 7 3 sum8 (by decide)

/-- C16 as stated fails in the state `Stop` leaves: on `issuedAA` (token `AA`
valid until 110) `Stop` returns, the reaper has not run yet, and `Checkout(AA)`
at time 105 returns true. -/
theorem checkout_true_right_after_stop :
    ¬ ∀ (t t1 : TokenHolder) (token : GoString) (now₁ now₂ : Time), t.Stop = .ok t1 →
        ∃ t2, t1.Checkout token now₁ now₂ = .ok (false, t2) := by
  intro hclaim
  obtain ⟨t2, h2⟩ := hclaim issuedAA stoppedAA [65, 65] 105 105 stoppedAA_eq
  have h3 : (stoppedAA.Checkout [65, 65] 105 105).map Prod.fst = .ok true := rfl
  rw [h2] at h3
  simp [Except.map] at h3

/-- C16 as amended: on a running holder (registry `m`, hash installed, ticker
created, `cancel` bound to the live context number `i`) `Stop` returns, stops
the ticker, cancels the context and leaves the registry as it is; the
cancellation step of the reaper is then enabled, and once the reaper has taken
it the registry is empty and `Checkout` returns false for every token. -/
theorem stop_then_reaper_clears (t : TokenHolder) (m : Registry) (hf : GoString → GoString)
    (tk : Ticker) (i : Nat) (hm : t.tokens = some m) (hs : t.hashFuncSet = true)
    (hh : t.hashImpl = some hf) (htk : t.cleanupTicker = some tk) (hc : t.cancel = some i)
    (hi : i < t.ctxDone.length) :
    ∃ t1 t2, t.Stop = .ok t1 ∧ t1.tokens = some m ∧
      t1.cleanupTicker = some { tk with running := false } ∧
      reaperStep i t1 .done = some t2 ∧ t2.tokens = some Registry.empty ∧
      ∀ token now₁ now₂, t2.Checkout token now₁ now₂ = .ok (false, t2) := by
  rcases t with ⟨tokens, cd, cn, D, n, ct, fl, hi', hs'⟩
  simp only at hm hs hh htk hc hi
  subst hm hs hh htk hc
  have hdone : (cd.set i true)[i]? = some true := by
    rw [List.getElem?_set]
    simp [hi]
  refine ⟨⟨some m, cd.set i true, some i, D, n, some { tk with running := false }, fl,
      some hf, true⟩,
    ⟨some Registry.empty, cd.set i true, some i, D, n, some { tk with running := false }, fl,
      some hf, true⟩, rfl, rfl, rfl, ?_, rfl, ?_⟩
  · simp only [reaperStep, hdone, if_true]
    rfl
  · intro token now₁ now₂
    exact TokenHolder.Checkout_eq _ token now₁ now₂ Registry.empty
      (hexEncodeToString (hf token)) rfl rfl

theorem stop_then_reaper_clears_witness :
    ∃ t1 t2, issuedAA.Stop = .ok t1 ∧ t1.tokens = some (Registry.empty.set [56, 50] 110) ∧
      t1.cleanupTicker = some { ({ period := 5, running := true } : Ticker) with
        running := false } ∧
      reaperStep 0 t1 .done = some t2 ∧ t2.tokens = some Registry.empty ∧
      ∀ token now₁ now₂, t2.Checkout token now₁ now₂ = .ok (false, t2) :=
  stop_then_reaper_clears issuedAA (Registry.empty.set [56, 50] 110) sum8
    { period := 5, running := true } 0 rfl rfl rfl rfl rfl (by decide)

/-- C17 as stated fails on the zero value: none of the five operations returns
to its caller; `New`, `Checkout`, `Drop` and `CheckoutAndDrop` panic on the call
of the nil `hashFunc`, and `Stop` on the nil ticker. -/
theorem zero_value_operations_panic :
    TokenHolder.zero.New allocLimit [constAttempt 17] 100 = .error .nilFuncCall ∧
      TokenHolder.zero.Checkout [65, 65] 100 100 = .error .nilFuncCall ∧
      TokenHolder.zero.Drop [65, 65] = .error .nilFuncCall ∧
      TokenHolder.zero.CheckoutAndDrop [65, 65] 100 100 = .error .nilFuncCall ∧
      TokenHolder.zero.Stop = .error .nilTicker :=
  ⟨rfl, rfl, rfl, rfl, rfl⟩

/-- C17 as amended: on the zero value of `TokenHolder`, for all arguments, each
of `New` (as soon as it makes a pass), `Checkout`, `Drop` and `CheckoutAndDrop`
panics on the call of the nil function value `hashFunc`: none returns a value
or an error to its caller, and none leaves silently. -/
theorem zero_value_hashFunc_panics (a : Attempt) (rest : List Attempt) (token : GoString)
    (now now₁ now₂ : Time) :
    TokenHolder.zero.New maxLen (a :: rest) now = .error .nilFuncCall ∧
      TokenHolder.zero.Checkout token now₁ now₂ = .error .nilFuncCall ∧
      TokenHolder.zero.Drop token = .error .nilFuncCall ∧
      TokenHolder.zero.CheckoutAndDrop token now₁ now₂ = .error .nilFuncCall := by
  refine ⟨?_, rfl, rfl, rfl⟩
  obtain ⟨b, hb⟩ := TokenHolder.candidate_snd TokenHolder.zero a []
  have hnew : TokenHolder.zero.New maxLen (a :: rest) now =
      TokenHolder.newLoop now (a :: rest) [] TokenHolder.zero := rfl
  rw [hnew]
  rcases hc : TokenHolder.candidate TokenHolder.zero a [] with ⟨nt, t1⟩
  rw [hc] at hb
  simp only at hb
  subst hb
  simp only [TokenHolder.newLoop, hc]
  rfl

/-- C19, the code at a failing input: the holder is restarted (`Start` twice),
which cancels the context of the first reaper.  That reaper clears the
registry, `New` then issues `AA` into the new registry, and the same reaper,
still in its loop with its cancellation step enabled, clears the registry a
second time: the freshly issued `AA` no longer checks out.  The step stays
enabled after that. -/
theorem cancelled_reaper_clears_again :
    started0.Start 10 5 2 (some sum8) = .ok restarted0 ∧
      reaperStep 0 restarted0 .done = some restarted0 ∧
      restarted0.New allocLimit [constAttempt 17] 100 = .ok ([65, 65], restartedAA) ∧
      restartedAA.tokens.map Registry.entries = some [([56, 50], 110)] ∧
      reaperStep 0 restartedAA .done = some restarted0 ∧
      restarted0.Checkout [65, 65] 101 101 = .ok (false, restarted0) ∧
      (reaperRun 0 restartedAA [.done, .done, .done]).map (fun t => t.ctxDone[0]?) =
        some (some true) :=
  ⟨rfl, rfl, rfl, rfl, rfl, rfl, rfl⟩

/-- C20: for every state of the template holder, (1) when the directory walk
succeeds and `ParseFiles` fails on the collected files, `LoadTemplates` returns
the parse error and leaves no template set, whatever was loaded before, and
`Apply` then returns the "templates not loaded" error; (2) this includes the
walk that finds no file, when `ParseFiles` rejects an empty list; (3) when the
walk itself fails, `LoadTemplates` returns the walk error and leaves the holder
unchanged. -/
theorem loadTemplates_failure_modes (t : TemplateHolder) (entries : List WalkEntry)
    (parseFiles : List GoString → Except TemplateError Template) :
    (∀ files e, TemplateHolder.walk entries [] = .ok files → parseFiles files = .error e →
        t.LoadTemplates entries parseFiles = (some e, { templates := none }) ∧
        ∀ execute name, (t.LoadTemplates entries parseFiles).2.Apply execute name =
          some .notLoaded) ∧
      (∀ e, (∀ x ∈ entries, x.isDir = true ∧ x.err = none) → parseFiles [] = .error e →
        t.LoadTemplates entries parseFiles = (some e, { templates := none })) ∧
      (∀ e, TemplateHolder.walk entries [] = .error e →
        t.LoadTemplates entries parseFiles = (some e, t)) := by
  have hload : ∀ files e, TemplateHolder.walk entries [] = .ok files →
      parseFiles files = .error e →
      t.LoadTemplates entries parseFiles = (some e, { templates := none }) := by
    intro files e hw hp
    simp only [TemplateHolder.LoadTemplates, hw, hp]
  have hdirs : ∀ (es : List WalkEntry) (acc : List GoString),
      (∀ x ∈ es, x.isDir = true ∧ x.err = none) → TemplateHolder.walk es acc = .ok acc := by
    intro es
    induction es with
    | nil => intro acc _; rfl
    | cons x xs ih =>
      intro acc hall
      obtain ⟨hd, he⟩ := hall x (List.mem_cons_self x xs)
      simp only [TemplateHolder.walk, TemplateHolder.walkFn, he, hd, Bool.not_true]
      exact ih acc (fun y hy => hall y (List.mem_cons_of_mem x hy))
  refine ⟨?_, ?_, ?_⟩
  · intro files e hw hp
    refine ⟨hload files e hw hp, ?_⟩
    intro execute name
    rw [hload files e hw hp]
    rfl
  · intro e hall hp
    exact hload [] e (hdirs entries [] hall) hp
  · intro e hw
    simp only [TemplateHolder.LoadTemplates, hw]

theorem loadTemplates_failure_modes_witness :
    (TemplateHolder.LoadTemplates { templates := some { files := [[97]] } }
        [{ path := [100], isDir := true, err := none },
          { path := [33, 98], isDir := false, err := none }] parseFilesEx =
        (some (.parse 1), { templates := none }) ∧
      ∀ execute name,
        (TemplateHolder.LoadTemplates { templates := some { files := [[97]] } }
          [{ path := [100], isDir := true, err := none },
            { path := [33, 98], isDir := false, err := none }] parseFilesEx).2.Apply
          execute name = some .notLoaded) ∧
      TemplateHolder.LoadTemplates { templates := some { files := [[97]] } }
        [{ path := [100], isDir := true, err := none }] parseFilesEx =
        (some (.parse 0), { templates := none }) ∧
      TemplateHolder.LoadTemplates { templates := some { files := [[97]] } }
        [{ path := [100], isDir := true, err := some (.walk 2) }] parseFilesEx =
        (some (.walk 2), { templates := some { files := [[97]] } }) :=
  ⟨(loadTemplates_failure_modes { templates := some { files := [[97]] } }
      [{ path := [100], isDir := true, err := none },
        { path := [33, 98], isDir := false, err := none }] parseFilesEx).1
      [[33, 98]] (.parse 1) rfl rfl,
   (loadTemplates_failure_modes { templates := some { files := [[97]] } }
      [{ path := [100], isDir := true, err := none }] parseFilesEx).2.1
      (.parse 0) (by decide) rfl,
   (loadTemplates_failure_modes { templates := some { files := [[97]] } }
      [{ path := [100], isDir := true, err := some (.walk 2) }] parseFilesEx).2.2
      (.walk 2) rfl⟩

/-! ## Lemmas on the history of a digest -/

/-- One operation keeps the invariant of the history of the digest `d`. -/
theorem step_writeInv (t0 t t' : TokenHolder) (D : Int) (d : GoString) (acc : Option Time)
    (clock clock' : Time) (op : Op) (r : Ret)
    (hinv : TokenHolder.WriteInv t0 t D d acc clock) (hstep : step t op = .ok (r, t'))
    (hclk : opClock clock op = some clock') :
    TokenHolder.WriteInv t0 t' D d (writeStep t0 d acc (op, r)) clock' := by
  obtain ⟨hi, hs, hD, ⟨m, hm, hrec⟩, hle⟩ := hinv
  have hcong : ∀ token, t0.hashFunc token = t.hashFunc token :=
    fun token => (TokenHolder.hashFunc_congr t0 t hi hs token).symm
  cases op with
  | new maxLen src now =>
    simp only [step] at hstep
    simp only [opClock] at hclk
    split at hclk
    · rename_i hcn
      simp only [Option.some.injEq] at hclk
      subst hclk
      cases hN : t.New maxLen src now with
      | error e => simp [hN] at hstep
      | ok p =>
        obtain ⟨tok, t1⟩ := p
        simp only [hN, Except.ok.injEq, Prod.mk.injEq] at hstep
        obtain ⟨hr, ht1⟩ := hstep
        subst hr ht1
        obtain ⟨b, m0, d0, hm0, hd0, _, ht1⟩ := TokenHolder.New_ok t maxLen src now tok t1 hN
        subst ht1
        rw [hm] at hm0
        simp only [Option.some.injEq] at hm0
        subst hm0
        simp only [writeStep, hasDigest_eq t0 tok d d0 ((hcong tok).trans hd0)]
        refine ⟨hi, hs, hD, ⟨_, rfl, ?_⟩, ?_⟩
        · intro e he
          by_cases hdd : d0 = d
          · subst hdd
            simp only [Registry.get_set, if_true, Option.some.injEq] at he
            exact ⟨now, by simp, by rw [← he, hD]⟩
          · have hne : ¬ d = d0 := fun h => hdd h.symm
            simp only [Registry.get_set, hne, if_false] at he
            simpa [hdd] using hrec e he
        · intro s hsome
          by_cases hdd : d0 = d
          · simp only [hdd, decide_True, if_true, Option.some.injEq] at hsome
            exact le_of_eq hsome.symm
          · simp only [hdd, decide_False, Bool.false_eq_true, if_false] at hsome
            exact le_trans (hle s hsome) hcn
    · simp at hclk
  | checkout token now₁ now₂ =>
    simp only [step] at hstep
    simp only [opClock] at hclk
    split at hclk
    · rename_i hcn
      simp only [Option.some.injEq] at hclk
      subst hclk
      have hcb : clock ≤ now₂ := le_trans hcn.1 hcn.2
      cases hh : t.hashFunc token with
      | error e => simp [TokenHolder.Checkout, hh] at hstep
      | ok d0 =>
        rw [TokenHolder.Checkout_eq t token now₁ now₂ m d0 hm hh] at hstep
        cases hv : m.get d0 with
        | none =>
          simp only [hv, Except.ok.injEq, Prod.mk.injEq] at hstep
          obtain ⟨hr, ht1⟩ := hstep
          subst hr ht1
          simp only [writeStep]
          exact ⟨hi, hs, hD, ⟨m, hm, hrec⟩, fun s h => le_trans (hle s h) hcb⟩
        | some v =>
          by_cases hlt : v < now₁
          · simp only [hv, hlt, if_true, Except.ok.injEq, Prod.mk.injEq] at hstep
            obtain ⟨hr, ht1⟩ := hstep
            subst hr ht1
            simp only [writeStep]
            refine ⟨hi, hs, hD, ⟨_, rfl, ?_⟩, fun s h => le_trans (hle s h) hcb⟩
            intro e he
            simp only [Registry.get_delete] at he
            split at he
            · simp at he
            · exact hrec e he
          · simp only [hv, hlt, if_false, Except.ok.injEq, Prod.mk.injEq] at hstep
            obtain ⟨hr, ht1⟩ := hstep
            subst hr ht1
            simp only [writeStep, hasDigest_eq t0 token d d0 ((hcong token).trans hh)]
            refine ⟨hi, hs, hD, ⟨_, rfl, ?_⟩, ?_⟩
            · intro e he
              by_cases hdd : d0 = d
              · subst hdd
                simp only [Registry.get_set, if_true, Option.some.injEq] at he
                exact ⟨now₂, by simp, by rw [← he, hD]⟩
              · have hne : ¬ d = d0 := fun h => hdd h.symm
                simp only [Registry.get_set, hne, if_false] at he
                simpa [hdd] using hrec e he
            · intro s hsome
              by_cases hdd : d0 = d
              · simp only [hdd, decide_True, if_true, Option.some.injEq] at hsome
                exact le_of_eq hsome.symm
              · simp only [hdd, decide_False, Bool.false_eq_true, if_false] at hsome
                exact le_trans (hle s hsome) hcb
    · simp at hclk
  | drop token =>
    simp only [step] at hstep
    simp only [opClock, Option.some.injEq] at hclk
    subst hclk
    cases hh : t.hashFunc token with
    | error e => simp [TokenHolder.Drop, hh] at hstep
    | ok d0 =>
      rw [TokenHolder.Drop_eq t token m d0 hm hh] at hstep
      simp only [Except.ok.injEq, Prod.mk.injEq] at hstep
      obtain ⟨hr, ht1⟩ := hstep
      subst hr ht1
      simp only [writeStep, hasDigest_eq t0 token d d0 ((hcong token).trans hh)]
      refine ⟨hi, hs, hD, ⟨_, rfl, ?_⟩, ?_⟩
      · intro e he
        by_cases hdd : d0 = d
        · subst hdd
          simp [Registry.get_delete] at he
        · have hne : ¬ d = d0 := fun h => hdd h.symm
          simp only [Registry.get_delete, hne, if_false] at he
          simpa [hdd] using hrec e he
      · intro s hsome
        by_cases hdd : d0 = d
        · simp [hdd] at hsome
        · simp only [hdd, decide_False, Bool.false_eq_true, if_false] at hsome
          exact hle s hsome
  | checkoutAndDrop token now₁ now₂ =>
    simp only [step] at hstep
    simp only [opClock] at hclk
    split at hclk
    · rename_i hcn
      simp only [Option.some.injEq] at hclk
      subst hclk
      have hcb : clock ≤ now₂ := le_trans hcn.1 hcn.2
      cases hh : t.hashFunc token with
      | error e => simp [TokenHolder.CheckoutAndDrop, TokenHolder.Checkout, hh] at hstep
      | ok d0 =>
        rw [TokenHolder.CheckoutAndDrop_eq t token now₁ now₂ m d0 hm hh] at hstep
        have hfinal : ∀ (m1 : Registry) (b : Bool),
            (d0 = d → m1.get d = none) → (d0 ≠ d → m1.get d = m.get d) →
            TokenHolder.WriteInv t0 { t with tokens := some m1 } D d
              (writeStep t0 d acc (Op.checkoutAndDrop token now₁ now₂, Ret.flag b)) now₂ := by
          intro m1 b h1 h2
          simp only [writeStep, hasDigest_eq t0 token d d0 ((hcong token).trans hh)]
          refine ⟨hi, hs, hD, ⟨_, rfl, ?_⟩, ?_⟩
          · intro e he
            by_cases hdd : d0 = d
            · rw [h1 hdd] at he
              simp at he
            · rw [h2 hdd] at he
              simpa [hdd] using hrec e he
          · intro s hsome
            by_cases hdd : d0 = d
            · simp [hdd] at hsome
            · simp only [hdd, decide_False, Bool.false_eq_true, if_false] at hsome
              exact le_trans (hle s hsome) hcb
        cases hv : m.get d0 with
        | none =>
          simp only [hv, Except.ok.injEq, Prod.mk.injEq] at hstep
          obtain ⟨hr, ht1⟩ := hstep
          subst hr ht1
          have := hfinal m false (fun hdd => by rw [← hdd]; exact hv) (fun _ => rfl)
          rcases t with ⟨tk, cd, cn, D0, n, ct, fl, hi0, hs0⟩
          simp only at hm
          subst hm
          exact this
        | some v =>
          by_cases hlt : v < now₁
          · simp only [hv, hlt, if_true, Except.ok.injEq, Prod.mk.injEq] at hstep
            obtain ⟨hr, ht1⟩ := hstep
            subst hr ht1
            exact hfinal _ false (fun hdd => by simp [Registry.get_delete, hdd])
              (fun hdd => by
                have hne : ¬ d = d0 := fun h => hdd h.symm
                simp [Registry.get_delete, hne])
          · simp only [hv, hlt, if_false, Except.ok.injEq, Prod.mk.injEq] at hstep
            obtain ⟨hr, ht1⟩ := hstep
            subst hr ht1
            exact hfinal _ true (fun hdd => by simp [Registry.get_delete, hdd])
              (fun hdd => by
                have hne : ¬ d = d0 := fun h => hdd h.symm
                simp [Registry.get_delete, Registry.get_set, hne])
    · simp at hclk
  | sweep c =>
    simp only [step, Except.ok.injEq, Prod.mk.injEq] at hstep
    obtain ⟨hr, ht1⟩ := hstep
    subst hr ht1
    simp only [opClock] at hclk
    split at hclk
    · rename_i hcn
      simp only [Option.some.injEq] at hclk
      subst hclk
      simp only [writeStep]
      refine ⟨hi, hs, hD, ⟨m.sweep c, by simp [TokenHolder.reaperTick, hm], ?_⟩,
        fun s h => le_trans (hle s h) hcn⟩
      intro e he
      exact hrec e (Registry.get_sweep_some m c d e he)
    · simp at hclk

/-- A run of operations with a clock that never goes back keeps the invariant
of the history of the digest `d`. -/
theorem run_writeInv (t0 : TokenHolder) (D : Int) (d : GoString) (ops : List Op) :
    ∀ (t t' : TokenHolder) (acc : Option Time) (clock clock' : Time) (rets : List Ret),
      TokenHolder.WriteInv t0 t D d acc clock → run t ops = .ok (rets, t') →
      runClock clock ops = some clock' →
      TokenHolder.WriteInv t0 t' D d (lastWrite t0 d acc (ops.zip rets)) clock' := by
  induction ops with
  | nil =>
    intro t t' acc clock clock' rets hinv hrun hclk
    simp only [run, Except.ok.injEq, Prod.mk.injEq] at hrun
    simp only [runClock, Option.some.injEq] at hclk
    obtain ⟨hr, ht⟩ := hrun
    subst hr ht hclk
    exact hinv
  | cons op ops ih =>
    intro t t' acc clock clock' rets hinv hrun hclk
    simp only [run] at hrun
    simp only [runClock] at hclk
    cases hs : step t op with
    | error e => simp [hs] at hrun
    | ok p =>
      obtain ⟨r, t1⟩ := p
      simp only [hs] at hrun
      cases hr : run t1 ops with
      | error e => simp [hr] at hrun
      | ok q =>
        obtain ⟨rs, t2⟩ := q
        simp only [hr, Except.ok.injEq, Prod.mk.injEq] at hrun
        obtain ⟨hrets, ht2⟩ := hrun
        subst hrets ht2
        cases hc : opClock clock op with
        | none => simp [hc] at hclk
        | some clock1 =>
          simp only [hc] at hclk
          have h1 := step_writeInv t0 t t1 D d acc clock clock1 op r hinv hs hc
          have h2 := ih t1 t2 _ clock1 clock' rs h1 hr hclk
          simpa [lastWrite] using h2

/-- C18: take a holder as `Start` leaves it (empty registry) and any run of
`New`, `Checkout`, `Drop`, `CheckoutAndDrop` and sweep operations whose clock
readings never go back (validity `D` fixed).  If a `Checkout` of a token with
digest `d`, made afterwards at a clock reading `now₁` not before the clock of
the run, returns true, then the run holds a last write of `d` (a `New` that
returned a token with this digest, or a successful `Checkout` of one) at a time
`s` with no drop of `d` after it, the registry holds `d` with the expiry
`e = s + D`, and `s ≤ now₁ ≤ e`: the record is not treated as valid past its
expiry. -/
theorem checkout_true_only_within_validity (t0 t1 t2 : TokenHolder) (ops : List Op)
    (rets : List Ret) (c0 c1 now₁ now₂ : Time) (token d : GoString)
    (hm : t0.tokens = some Registry.empty) (hrun : run t0 ops = .ok (rets, t1))
    (hclk : runClock c0 ops = some c1) (hnow : c1 ≤ now₁)
    (hd : t0.hashFunc token = .ok d)
    (hco : t1.Checkout token now₁ now₂ = .ok (true, t2)) :
    ∃ s e m1, lastWrite t0 d none (ops.zip rets) = some s ∧ t1.tokens = some m1 ∧
      m1.get d = some e ∧ e = s + t0.validExpiredDuration ∧ s ≤ now₁ ∧ now₁ ≤ e := by
  have h0 : TokenHolder.WriteInv t0 t0 t0.validExpiredDuration d none c0 :=
    ⟨rfl, rfl, rfl, ⟨Registry.empty, hm, fun e he => by simp [Registry.get_empty] at he⟩,
      fun s hs => by simp at hs⟩
  obtain ⟨hi, hs, _, ⟨m1, hm1, hrec⟩, hle⟩ :=
    run_writeInv t0 t0.validExpiredDuration d ops t0 t1 none c0 c1 rets h0 hrun hclk
  have hd1 : t1.hashFunc token = .ok d := by
    rw [TokenHolder.hashFunc_congr t0 t1 hi hs token]
    exact hd
  rw [TokenHolder.Checkout_eq t1 token now₁ now₂ m1 d hm1 hd1] at hco
  cases hv : m1.get d with
  | none => simp [hv] at hco
  | some e =>
    by_cases hlt : e < now₁
    · simp [hv, hlt] at hco
    · obtain ⟨s, hsome, hes⟩ := hrec e hv
      exact ⟨s, e, m1, hsome, hm1, hv, hes, le_trans (hle s hsome) hnow, not_lt.mp hlt⟩

theorem checkout_true_only_within_validity_witness :
    ∃ s e m1,
      lastWrite started0 [56, 50] none
          ([Op.new allocLimit [constAttempt 17] 100, Op.checkout [65, 65] 105 105, Op.sweep 110].zip
            [Ret.token [65, 65], Ret.flag true, Ret.unit]) = some s ∧
        checkedAA.tokens = some m1 ∧ m1.get [56, 50] = some e ∧
        e = s + started0.validExpiredDuration ∧ s ≤ 112 ∧ 112 ≤ e :=
  checkout_true_only_within_validity started0 checkedAA recheckedAA
    [Op.new allocLimit [constAttempt 17] 100, Op.checkout [65, 65] 105 105, Op.sweep 110]
    [Ret.token [65, 65], Ret.flag true, Ret.unit] 100 110 112 112 [65, 65] [56, 50]
    rfl rfl rfl (by decide) rfl rfl

end SimpleWebTools
